import Mathlib

/-!
Verification of the online LFP-update core of
`userland/translation_functions/lfpykernels_PotjansDiesmann.py`
(class `PotjansDiesmannKernels`).

The embedding models the numerical state of a `PotjansDiesmannKernels`
object over exact rationals (`ℚ` stands for the Python/numpy floats, so
"equal within floating-point tolerance" becomes exact equality):

* `PDState` holds the attributes touched by `update`: `dt`
  (`sim_resolution`), `nT` (`len(self.tvec)`), `halfL`
  (`int(self.kernel_length / 2)`), `numElecs`, `popIDs` (`self.pop_IDs`,
  an id → name association built from a dict), `popKernels`
  (`self.pop_kernels`), `fr` (`self.fr_dict`) and `lfp` (`self.lfp`).
* `npArgmin`, `npConvolve`, `listMin`, `listMax` model the numpy calls
  used by `update` (`np.argmin`, `np.convolve(mode='full')`, `np.min`,
  `np.max`).
* `update` is a line-by-line translation of
  `PotjansDiesmannKernels.update`; a raised `KeyError` (unknown
  population id) is modelled by the `Bool` component of the result being
  `true`, with the state component holding the object state at the point
  of the raise (Python leaves in-place mutations visible when an
  exception propagates).  Python iterates `set(buffer[:, 0])` in an
  unspecified order; this is determinised as first-occurrence order
  (`bufferPopIds`).
* `sanityTestConvolution` models the `lfp_postcalc` computation of
  `PotjansDiesmannKernels.sanity_test_convolution`.
* `findKernels` models `PotjansDiesmannKernels._find_kernels` over an
  association list standing for the loaded `self.H` dict.
-/

namespace Cosim

/-- Spike event: one row of the co-simulation `buffer` array, with columns
(spike-recorder id, neuron id (unused), spike time). -/
structure SpikeEvent where
  popId : ℚ
  neuronId : ℚ
  t : ℚ
deriving DecidableEq

/-- Numerical state of a `PotjansDiesmannKernels` object: the attributes read
or written by `update`.  `dt = sim_dict['sim_resolution']`,
`nT = len(self.tvec)`, `halfL = int(self.kernel_length / 2)`,
`numElecs = self.num_elecs`. -/
structure PDState where
  dt : ℚ
  nT : ℕ
  halfL : ℕ
  numElecs : ℕ
  popIDs : List (ℚ × String)
  popKernels : String → List (List ℚ)
  fr : String → List ℚ
  lfp : List (List ℚ)

/-- Model of `np.min` on a 1-d array (0 on the empty list, which numpy would
reject; `update` only calls it on non-empty buffers). -/
def listMin : List ℚ → ℚ
  | [] => 0
  | [x] => x
  | x :: y :: xs => min x (listMin (y :: xs))

/-- Model of `np.max` on a 1-d array. -/
def listMax : List ℚ → ℚ
  | [] => 0
  | [x] => x
  | x :: y :: xs => max x (listMax (y :: xs))

/-- Model of `np.argmin` on a 1-d array: index of the first occurrence of the
minimum value. -/
def npArgmin : List ℚ → ℕ
  | [] => 0
  | [_] => 0
  | x :: y :: xs => if listMin (y :: xs) < x then npArgmin (y :: xs) + 1 else 0

/-- Model of `np.convolve(a, v, mode='full')`: output index `j` holds
`∑ a[m] * v[j - m]`.  (numpy rejects empty inputs; `update` never passes
them under the claims' hypotheses.) -/
def npConvolve (a v : List ℚ) : List ℚ :=
  (List.range (a.length + v.length - 1)).map fun j =>
    ((List.range (j + 1)).map fun m => a.getD m 0 * v.getD (j - m) 0).sum

/-- Value of `self.tvec[-1]` for grid length `nT` and resolution `dt`
(`self.tvec = np.arange(int(t_sim / dt + 1)) * dt`). -/
def tvecLastP (dt : ℚ) (nT : ℕ) : ℚ := ((nT : ℚ) - 1) * dt

/-- Model of `np.argmin(np.abs(t - self.tvec))`: linear scan for the grid
index nearest to time `t`. -/
def nearestIdxP (dt : ℚ) (nT : ℕ) (t : ℚ) : ℕ :=
  npArgmin ((List.range nT).map fun i : ℕ => |t - (i : ℚ) * dt|)

/-- `self.tvec[-1]` of a state. -/
def tvecLast (s : PDState) : ℚ := tvecLastP s.dt s.nT

/-- Nearest-grid-index lookup of a state. -/
def nearestIdx (s : PDState) (t : ℚ) : ℕ := nearestIdxP s.dt s.nT t

/-- Dictionary lookup `self.pop_IDs[pop_ID]`: `none` models a `KeyError`. -/
def lookupPopID : List (ℚ × String) → ℚ → Option String
  | [], _ => none
  | (k, v) :: rest, pid => if pid = k then some v else lookupPopID rest pid

/-- Helper for `bufferPopIds`: append a key unless it is already present. -/
def insertKey (l : List ℚ) (x : ℚ) : List ℚ := if x ∈ l then l else l ++ [x]

/-- Model of `set(buffer[:, 0])`: the distinct spike-recorder ids of the
buffer in first-occurrence order (Python's set iteration order is
unspecified; this fixes one order). -/
def bufferPopIds (buffer : List SpikeEvent) : List ℚ :=
  buffer.foldl (fun acc e => insertKey acc e.popId) []

/-- The spike-counting loop of `update`:

    for t_ in spiketimes:
        if t_ > self.tvec[-1]:
            break
        spiketime_idx = np.argmin(np.abs(t_ - self.tvec))
        self.fr_dict[pop_name][spiketime_idx] += 1

Note the `break`: the first spike time beyond `tvec[-1]` ends the loop,
dropping all later entries of `spiketimes` as well. -/
def addSpikes (s : PDState) : List ℚ → List ℚ → List ℚ
  | fr, [] => fr
  | fr, t :: ts =>
    if t > tvecLast s then fr
    else
      let i := nearestIdx s t
      addSpikes s (fr.set i (fr.getD i 0 + 1)) ts

/-- Model of the numpy in-place slice addition `row[start : start + len seg] += seg`
(as used on each LFP channel): entries of `row` at indices
`start ≤ i < start + seg.length` gain `seg[i - start]`; other entries are
unchanged.  `update` only performs it with the segment fitting inside the
destination slice. -/
def addAt (row : List ℚ) (start : ℕ) (seg : List ℚ) : List ℚ :=
  (List.range row.length).map fun i =>
    if start ≤ i ∧ i < start + seg.length then row.getD i 0 + seg.getD (i - start) 0
    else row.getD i 0

/-- Per-channel body of the electrode loop of `update`:

    k_ = self.pop_kernels[pop_name][elec_idx, :]
    lfp_ = np.convolve(k_, fr_, mode='full')[int(self.kernel_length / 2):]
    if len(self.lfp[elec_idx, sig_idx0:sig_idx1]) == len(lfp_):
        self.lfp[elec_idx, sig_idx0:sig_idx1] += lfp_
    else:
        self.lfp[elec_idx, sig_idx0:sig_idx1] += lfp_[:(sig_idx1 - sig_idx0)]
-/
def rowConvAdd (s : PDState) (popName : String) (fr_ : List ℚ) (sig0 sig1 : ℕ)
    (e : ℕ) (row : List ℚ) : List ℚ :=
  let k_ := (s.popKernels popName).getD e []
  let seg := (npConvolve k_ fr_).drop s.halfL
  if ((row.drop sig0).take (sig1 - sig0)).length = seg.length then addAt row sig0 seg
  else addAt row sig0 (seg.take (sig1 - sig0))

/-- The electrode loop `for elec_idx in range(self.num_elecs)` of `update`,
updating each LFP row in place. -/
def lfpAddPop (s : PDState) (popName : String) (fr_ : List ℚ) (sig0 sig1 : ℕ)
    (lfp : List (List ℚ)) : List (List ℚ) :=
  (List.range s.numElecs).foldl
    (fun cur e => cur.set e (rowConvAdd s popName fr_ sig0 sig1 e (cur.getD e []))) lfp

/-- Body of one iteration of the population loop of `update`, for a
resolved population name `popName`:

    spiketimes = buffer[buffer[:, 0] == pop_ID][:, 2]
    for t_ in spiketimes: ...          (the spike loop, `addSpikes`)
    fr_ = self.fr_dict[pop_name][t0_idx:t1_idx]
    window_idx0 = t0_idx
    window_idx1 = t1_idx + int(self.kernel_length / 2) - 1
    sig_idx0 = 0 if window_idx0 < 0 else window_idx0
    sig_idx1 = window_idx1 if window_idx1 < len(self.tvec) else len(self.tvec)
    for elec_idx in range(self.num_elecs): ...   (the electrode loop, `lfpAddPop`)

(`sig_idx0 = t0_idx` because `t0_idx`, an `np.argmin` result, is never
negative.) -/
def popUpdState (buffer : List SpikeEvent) (t0Idx t1Idx : ℕ) (s : PDState)
    (pid : ℚ) (popName : String) : PDState :=
  let spiketimes := (buffer.filter fun e => decide (e.popId = pid)).map SpikeEvent.t
  let newFr := addSpikes s (s.fr popName) spiketimes
  let s1 : PDState := { s with fr := fun q => if q = popName then newFr else s.fr q }
  let fr_ := (newFr.drop t0Idx).take (t1Idx - t0Idx)
  let windowIdx1 := t1Idx + s.halfL - 1
  let sig0 := t0Idx
  let sig1 := if windowIdx1 < s.nT then windowIdx1 else s.nT
  { s1 with lfp := lfpAddPop s1 popName fr_ sig0 sig1 s1.lfp }

/-- One iteration of the population loop: `pop_name = self.pop_IDs[pop_ID]`
raises `KeyError` (`none`) for an unregistered id, otherwise the state is
updated by `popUpdState`. -/
def stepPop (buffer : List SpikeEvent) (t0Idx t1Idx : ℕ) (s : PDState) (pid : ℚ) :
    Option PDState :=
  match lookupPopID s.popIDs pid with
  | none => none
  | some popName => some (popUpdState buffer t0Idx t1Idx s pid popName)

/-- The population loop `for pop_ID in set(buffer[:, 0])` of `update`.  An
unknown id raises `KeyError` (`Bool` result `true`), leaving the mutations
of previously processed populations in place. -/
def processPops (buffer : List SpikeEvent) (t0Idx t1Idx : ℕ) :
    PDState → List ℚ → PDState × Bool
  | s, [] => (s, false)
  | s, pid :: rest =>
    match stepPop buffer t0Idx t1Idx s pid with
    | none => (s, true)
    | some s2 => processPops buffer t0Idx t1Idx s2 rest

/-- Line-by-line model of `PotjansDiesmannKernels.update(buffer)`.  The
`Bool` component is `true` when the call raises (unknown population id);
the state component is the object state after the call (or at the raise). -/
def update (s : PDState) (buffer : List SpikeEvent) : PDState × Bool :=
  if buffer.length = 0 then (s, false)
  else
    let times := buffer.map SpikeEvent.t
    let t0 := listMin times
    let t1 := listMax times
    let t0Idx := nearestIdx s t0
    let t1Idx := nearestIdx s t1 + 1
    processPops buffer t0Idx t1Idx s (bufferPopIds buffer)

/-- One row (`elec_idx`) of `lfp_postcalc` in
`PotjansDiesmannKernels.sanity_test_convolution`:

    for pop_name in self.presyn_pops:
        fr_ = self.fr_dict[pop_name]
        k_ = self.pop_kernels[pop_name][elec_idx, :]
        lfp_ = np.convolve(k_, fr_, mode='full')[int(self.kernel_length / 2):]
        lfp_postcalc[elec_idx, :] += lfp_[:len(lfp_postcalc[elec_idx, :])]
-/
def sanityRow (s : PDState) (pops : List String) (e : ℕ) : List ℚ :=
  pops.foldl
    (fun row popName =>
      let k_ := (s.popKernels popName).getD e []
      let seg := (npConvolve k_ (s.fr popName)).drop s.halfL
      addAt row 0 (seg.take row.length))
    (List.replicate s.nT 0)

/-- Model of the `lfp_postcalc` array computed after the fact by
`PotjansDiesmannKernels.sanity_test_convolution` (`pops` stands for
`self.presyn_pops`). -/
def sanityTestConvolution (s : PDState) (pops : List String) : List (List ℚ) :=
  (List.range s.numElecs).map (sanityRow s pops)

/-- Zero kernel `np.zeros((num_elecs, kernel_length))`. -/
def zerosMat (nE L : ℕ) : List (List ℚ) :=
  List.replicate nE (List.replicate L 0)

/-- Elementwise matrix addition (numpy `+=` of two same-shaped arrays). -/
def matAdd (a b : List (List ℚ)) : List (List ℚ) :=
  List.zipWith (fun r1 r2 => List.zipWith (· + ·) r1 r2) a b

/-- Model of Python's `str.endswith` on the character lists: the pattern is
a suffix of the string. -/
def strEndsWith (s pat : String) : Bool := List.isSuffixOf pat.data s.data

/-- Model of `PotjansDiesmannKernels._find_kernels` for one presynaptic
population: start from a zero array and add every loaded pathway kernel
whose name ends with the population name (`H` is the loaded `self.H` dict
as an association list in iteration order; the `is not None` guard of the
source is vacuous because `self.H` only stores loaded arrays). -/
def findKernels (nE L : ℕ) (H : List (String × List (List ℚ))) (popName : String) :
    List (List ℚ) :=
  H.foldl (fun acc p => if strEndsWith p.1 popName then matAdd acc p.2 else acc)
    (zerosMat nE L)

/-- Presynaptic label of a pathway name `'postsyn:presyn'`: the part after
the colon (Python `pathway.split(':')[1]`, on the character lists). -/
def presynLabel (pathway : String) : String :=
  String.mk ((pathway.data.splitOn ':').getD 1 [])

/-- Modelled from the spec ("produce one summed kernel per presynaptic
population by adding together all pathway kernels whose presynaptic label
matches, across every postsynaptic target.  Absent pathway kernels
contribute zero."): zero array plus the sum of exactly the loaded pathway
kernels whose presynaptic label equals the population. -/
def specSummedKernel (nE L : ℕ) (H : List (String × List (List ℚ)))
    (popName : String) : List (List ℚ) :=
  ((H.filter fun p => presynLabel p.1 == popName).map Prod.snd).foldl matAdd
    (zerosMat nE L)

/-- The postsynaptic populations `self.postsyn_pops`
(= `net_dict['populations']`). -/
def postsynPops : List String :=
  ["L23E", "L23I", "L4E", "L4I", "L5E", "L5I", "L6E", "L6I"]

/-- The presynaptic populations `self.presyn_pops`
(= `net_dict['populations'] + ['TC']`). -/
def presynPops : List String := postsynPops ++ ["TC"]

/-- Python's built-in `round` (round half to even), on exact rationals. -/
def pyRound (q : ℚ) : ℤ :=
  if q - ⌊q⌋ < 1 / 2 then ⌊q⌋
  else if 1 / 2 < q - ⌊q⌋ then ⌊q⌋ + 1
  else if ⌊q⌋ % 2 = 0 then ⌊q⌋ else ⌊q⌋ + 1

/-- Repeatedly calling `update`, once per batch, discarding the (under the
claims' hypotheses always `false`) error flags. -/
def runBatches (s : PDState) : List (List SpikeEvent) → PDState
  | [] => s
  | b :: bs => runBatches (update s b).1 bs

/-- Integer-indexed read of a list of rationals, `0` outside the list
(matches the zero padding of `mode='full'` convolution). -/
def getZ (l : List ℚ) (z : ℤ) : ℚ := if 0 ≤ z then l.getD z.toNat 0 else 0

theorem getD_drop (l : List ℚ) (n j : ℕ) : (l.drop n).getD j 0 = l.getD (n + j) 0 := by
  simp [List.getD_eq_getElem?_getD, List.getElem?_drop]

theorem getD_take (l : List ℚ) (n j : ℕ) :
    (l.take n).getD j 0 = if j < n then l.getD j 0 else 0 := by
  simp only [List.getD_eq_getElem?_getD, List.getElem?_take]
  split <;> simp

theorem getD_slice (l : List ℚ) (a w j : ℕ) :
    ((l.drop a).take w).getD j 0 = if j < w then l.getD (a + j) 0 else 0 := by
  rw [getD_take]
  split <;> simp [getD_drop]

theorem getD_set {α : Type} (d : α) (l : List α) (i j : ℕ) (x : α) :
    (l.set i x).getD j d = if i = j ∧ j < l.length then x else l.getD j d := by
  by_cases hij : i = j
  · subst hij
    by_cases hlen : i < l.length
    · rw [if_pos ⟨rfl, hlen⟩, List.getD_eq_getElem _ _ (by simpa using hlen),
        List.getElem_set, if_pos rfl]
    · rw [if_neg (fun hc => hlen hc.2),
        List.set_eq_of_length_le (Nat.le_of_not_lt hlen)]
  · rw [if_neg (fun hc => hij hc.1)]
    simp only [List.getD_eq_getElem?_getD, List.getElem?_set, if_neg hij]

theorem getD_map_range (n j : ℕ) (f : ℕ → ℚ) :
    (((List.range n).map f).getD j 0) = if j < n then f j else 0 := by
  by_cases h : j < n
  · rw [if_pos h, List.getD_eq_getElem _ _ (by simpa using h), List.getElem_map,
      List.getElem_range]
  · rw [if_neg h]
    exact List.getD_eq_default _ _ (by simpa using Nat.le_of_not_lt h)

theorem listMin_le (l : List ℚ) : ∀ a ∈ l, listMin l ≤ a := by
  induction l with
  | nil => simp
  | cons x xs ih =>
    cases xs with
    | nil => intro a ha; rw [List.mem_singleton] at ha; simp [listMin, ha]
    | cons y ys =>
      intro a ha
      rw [listMin]
      rcases List.mem_cons.mp ha with h | h
      · subst h; exact min_le_left _ _
      · exact le_trans (min_le_right _ _) (ih a h)

theorem listMin_mem (l : List ℚ) (h : l ≠ []) : listMin l ∈ l := by
  induction l with
  | nil => exact absurd rfl h
  | cons x xs ih =>
    cases xs with
    | nil => simp [listMin]
    | cons y ys =>
      rw [listMin]
      rcases min_cases x (listMin (y :: ys)) with ⟨he, _⟩ | ⟨he, _⟩
      · rw [he]; exact List.mem_cons_self _ _
      · rw [he]; exact List.mem_cons_of_mem _ (ih (by simp))

theorem le_listMax (l : List ℚ) : ∀ a ∈ l, a ≤ listMax l := by
  induction l with
  | nil => simp
  | cons x xs ih =>
    cases xs with
    | nil => intro a ha; rw [List.mem_singleton] at ha; simp [listMax, ha]
    | cons y ys =>
      intro a ha
      rw [listMax]
      rcases List.mem_cons.mp ha with h | h
      · subst h; exact le_max_left _ _
      · exact le_trans (ih a h) (le_max_right _ _)

theorem listMax_mem (l : List ℚ) (h : l ≠ []) : listMax l ∈ l := by
  induction l with
  | nil => exact absurd rfl h
  | cons x xs ih =>
    cases xs with
    | nil => simp [listMax]
    | cons y ys =>
      rw [listMax]
      rcases max_cases x (listMax (y :: ys)) with ⟨he, _⟩ | ⟨he, _⟩
      · rw [he]; exact List.mem_cons_self _ _
      · rw [he]; exact List.mem_cons_of_mem _ (ih (by simp))

theorem npArgmin_lt_length (l : List ℚ) (h : l ≠ []) : npArgmin l < l.length := by
  induction l with
  | nil => exact absurd rfl h
  | cons x xs ih =>
    cases xs with
    | nil => simp [npArgmin]
    | cons y ys =>
      rw [npArgmin]
      split
      · have h2 := ih (by simp)
        simp only [List.length_cons] at h2 ⊢
        omega
      · simp

/-- Characterisation of `np.argmin`: the first index attaining the minimum. -/
theorem npArgmin_eq (l : List ℚ) (j : ℕ) (hj : j < l.length)
    (hmin : ∀ i, i < l.length → l.getD j 0 ≤ l.getD i 0)
    (hfirst : ∀ i, i < j → l.getD j 0 < l.getD i 0) : npArgmin l = j := by
  induction l generalizing j with
  | nil => simp at hj
  | cons x xs ih =>
    cases xs with
    | nil =>
      rw [npArgmin]
      simp only [List.length_singleton] at hj
      omega
    | cons y ys =>
      rw [npArgmin]
      cases j with
      | zero =>
        have hx : ∀ a ∈ y :: ys, x ≤ a := by
          intro a ha
          rcases List.mem_iff_getElem.mp ha with ⟨i, hi, he⟩
          have h1 := hmin (i + 1) (by simp only [List.length_cons] at hi ⊢; omega)
          rwa [List.getD_cons_zero, List.getD_cons_succ,
            List.getD_eq_getElem _ _ hi, he] at h1
        rw [if_neg]
        exact not_lt.mpr (hx _ (listMin_mem _ (by simp)))
      | succ j' =>
        have hj' : j' < (y :: ys).length := by
          simp only [List.length_cons] at hj ⊢; omega
        have hlt : listMin (y :: ys) < x := by
          have h0 := hfirst 0 (Nat.succ_pos _)
          rw [List.getD_cons_succ, List.getD_cons_zero] at h0
          have hmem : (y :: ys).getD j' 0 ∈ y :: ys := by
            rw [List.getD_eq_getElem _ _ hj']
            exact List.getElem_mem _
          exact lt_of_le_of_lt (listMin_le _ _ hmem) h0
        rw [if_pos hlt]
        have harg := ih j' hj'
          (fun i hi => by
            have h1 := hmin (i + 1) (by simp only [List.length_cons] at hi ⊢; omega)
            rwa [List.getD_cons_succ, List.getD_cons_succ] at h1)
          (fun i hi => by
            have h1 := hfirst (i + 1) (by omega)
            rwa [List.getD_cons_succ, List.getD_cons_succ] at h1)
        omega

/-- Arithmetic form of the nearest-grid-index scan: on a uniform grid of
`nT ≥ 1` points with spacing `dt > 0`, for `0 ≤ t ≤ tvec[-1]` the scan
returns `⌈t/dt - 1/2⌉` — the nearest index, with ties resolved to the
lower index because `np.argmin` returns the first minimiser. -/
theorem nearestIdxP_eq (dt : ℚ) (nT : ℕ) (t : ℚ) (hdt : 0 < dt) (hnT : 1 ≤ nT)
    (h0 : 0 ≤ t) (h1 : t ≤ tvecLastP dt nT) :
    nearestIdxP dt nT t = (⌈t / dt - 1 / 2⌉).toNat := by
  set r := t / dt with hr
  have ht : t = r * dt := (div_mul_cancel₀ t (ne_of_gt hdt)).symm
  have hr0 : 0 ≤ r := div_nonneg h0 hdt.le
  have hr1 : r ≤ (nT : ℚ) - 1 := by
    rw [hr, div_le_iff₀ hdt]
    simpa [tvecLastP] using h1
  set istar := ⌈r - 1 / 2⌉ with histar
  have hc1 : r - 1 / 2 ≤ (istar : ℚ) := Int.le_ceil _
  have hc2 : (istar : ℚ) < r + 1 / 2 := by
    have := Int.ceil_lt_add_one (r - 1 / 2)
    rw [← histar] at this
    linarith
  have hge : 0 ≤ istar := by
    rw [histar, Int.le_ceil_iff]
    push_cast
    linarith
  set j := istar.toNat with hj
  have hjZ : (j : ℤ) = istar := Int.toNat_of_nonneg hge
  have hjQ : (j : ℚ) = (istar : ℚ) := by exact_mod_cast congrArg (Int.cast : ℤ → ℚ) hjZ
  have hjlt : j < nT := by
    have hle : istar ≤ (nT : ℤ) - 1 := by
      rw [histar, Int.ceil_le]
      push_cast
      linarith
    omega
  have habs : ∀ i : ℕ, |t - (i : ℚ) * dt| = |r - (i : ℚ)| * dt := by
    intro i
    rw [ht]
    rw [show r * dt - (i : ℚ) * dt = (r - (i : ℚ)) * dt by ring, abs_mul,
      abs_of_pos hdt]
  have hBj : |r - (j : ℚ)| ≤ 1 / 2 := by
    rw [abs_le]
    constructor <;> [skip; skip] <;> rw [hjQ] <;> linarith
  have hgap : ∀ i : ℕ, i ≠ j → 1 ≤ |(i : ℚ) - (j : ℚ)| := by
    intro i hij
    rcases Nat.lt_or_ge i j with h | h
    · have hc : (i : ℚ) + 1 ≤ (j : ℚ) := by exact_mod_cast h
      rw [abs_sub_comm, abs_of_nonneg (by linarith)]
      linarith
    · have hlt' : j < i := lt_of_le_of_ne h (fun hc => hij hc.symm)
      have hc : (j : ℚ) + 1 ≤ (i : ℚ) := by exact_mod_cast hlt'
      rw [abs_of_nonneg (by linarith)]
      linarith
  have := npArgmin_eq ((List.range nT).map fun i : ℕ => |t - (i : ℚ) * dt|) j
    (by simpa using hjlt)
    (fun i hi => by
      simp only [List.length_map, List.length_range] at hi
      rw [getD_map_range, getD_map_range, if_pos hi, if_pos hjlt, habs, habs]
      have htri : |(i : ℚ) - (j : ℚ)| ≤ |r - (i : ℚ)| + |r - (j : ℚ)| := by
        have h1' := abs_sub_abs_le_abs_sub (r - (j : ℚ)) (r - (i : ℚ))
        have h2' := abs_sub (r - (j : ℚ)) (r - (i : ℚ))
        calc |(i : ℚ) - (j : ℚ)| = |(r - (j : ℚ)) - (r - (i : ℚ))| := by ring_nf
          _ ≤ |r - (j : ℚ)| + |r - (i : ℚ)| := abs_sub _ _
          _ = |r - (i : ℚ)| + |r - (j : ℚ)| := by ring
      by_cases hij : i = j
      · rw [hij]
      · have hg := hgap i hij
        have := abs_nonneg (r - (i : ℚ))
        nlinarith [hBj])
    (fun i hi => by
      have hilt : i < nT := lt_trans hi hjlt
      rw [getD_map_range, getD_map_range, if_pos hilt, if_pos hjlt, habs, habs]
      have hc : (i : ℚ) + 1 ≤ (j : ℚ) := by exact_mod_cast hi
      have hA : r - (i : ℚ) ≥ (r - (j : ℚ)) + 1 := by linarith
      have hAbs : |r - (i : ℚ)| ≥ r - (i : ℚ) := le_abs_self _
      have hgoal : |r - (j : ℚ)| < |r - (i : ℚ)| := by
        rcases abs_cases (r - (j : ℚ)) with ⟨hB, hBn⟩ | ⟨hB, hBn⟩
        · linarith
        · have hBlt : -(r - (j : ℚ)) < 1 / 2 := by rw [hjQ]; linarith
          linarith
      nlinarith [hgoal, hdt])
  simpa [nearestIdxP] using this

theorem nearestIdxP_lt (dt : ℚ) (nT : ℕ) (t : ℚ) (hnT : 1 ≤ nT) :
    nearestIdxP dt nT t < nT := by
  have h := npArgmin_lt_length ((List.range nT).map fun i : ℕ => |t - (i : ℚ) * dt|)
    (by
      intro hc
      have := congrArg List.length hc
      simp only [List.length_map, List.length_range, List.length_nil] at this
      omega)
  simpa [nearestIdxP] using h

theorem nearestIdxP_mono (dt : ℚ) (nT : ℕ) {t t' : ℚ} (hdt : 0 < dt) (hnT : 1 ≤ nT)
    (h0 : 0 ≤ t) (h1 : t' ≤ tvecLastP dt nT) (htt : t ≤ t') :
    nearestIdxP dt nT t ≤ nearestIdxP dt nT t' := by
  rw [nearestIdxP_eq dt nT t hdt hnT h0 (le_trans htt h1),
    nearestIdxP_eq dt nT t' hdt hnT (le_trans h0 htt) h1]
  have hceil : ⌈t / dt - 1 / 2⌉ ≤ ⌈t' / dt - 1 / 2⌉ := by
    apply Int.ceil_le_ceil
    have := (div_le_div_iff_of_pos_right hdt).mpr htt
    linarith
  omega

theorem length_npConvolve (a v : List ℚ) :
    (npConvolve a v).length = a.length + v.length - 1 := by
  simp [npConvolve]

theorem getZ_ofNat (l : List ℚ) (n : ℕ) : getZ l (n : ℤ) = l.getD n 0 := by
  simp [getZ]

theorem getZ_neg (l : List ℚ) (z : ℤ) (h : z < 0) : getZ l z = 0 := by
  simp [getZ, not_le.mpr h]

theorem getZ_ge_length (l : List ℚ) (z : ℤ) (h : (l.length : ℤ) ≤ z) : getZ l z = 0 := by
  unfold getZ
  split
  · exact List.getD_eq_default _ _ (by omega)
  · rfl

theorem list_sum_range_eq (n : ℕ) (f : ℕ → ℚ) :
    ((List.range n).map f).sum = ∑ m ∈ Finset.range n, f m := by
  induction n with
  | zero => simp
  | succ k ih =>
    rw [List.range_succ, List.map_append, List.sum_append, Finset.sum_range_succ, ih]
    simp

/-- Pointwise description of full-mode convolution, valid at every index
(out-of-range reads are zero on both sides). -/
theorem npConvolve_getD (a v : List ℚ) (j : ℕ) :
    (npConvolve a v).getD j 0 =
      ∑ m ∈ Finset.range a.length, a.getD m 0 * getZ v ((j : ℤ) - (m : ℤ)) := by
  rw [npConvolve, getD_map_range]
  by_cases hj : j < a.length + v.length - 1
  · rw [if_pos hj, list_sum_range_eq]
    have h1 : ∑ m ∈ Finset.range (j + 1), a.getD m 0 * v.getD (j - m) 0 =
        ∑ m ∈ Finset.range (j + 1), a.getD m 0 * getZ v ((j : ℤ) - (m : ℤ)) := by
      apply Finset.sum_congr rfl
      intro m hm
      have hmj : m ≤ j := by
        have := Finset.mem_range.mp hm
        omega
      have h0 : (0 : ℤ) ≤ (j : ℤ) - (m : ℤ) := by omega
      have htn : ((j : ℤ) - (m : ℤ)).toNat = j - m := by omega
      simp only [getZ, if_pos h0, htn]
    rw [h1]
    have h2 : ∑ m ∈ Finset.range (j + 1), a.getD m 0 * getZ v ((j : ℤ) - (m : ℤ)) =
        ∑ m ∈ Finset.range (max (j + 1) a.length), a.getD m 0 * getZ v ((j : ℤ) - (m : ℤ)) := by
      apply Finset.sum_subset (Finset.range_subset.mpr (by omega))
      intro m hm hnm
      have hm1 := Finset.mem_range.mp hm
      have hm2 : ¬ m < j + 1 := fun hc => hnm (Finset.mem_range.mpr hc)
      rw [getZ_neg v _ (by omega)]
      ring
    have h3 : ∑ m ∈ Finset.range a.length, a.getD m 0 * getZ v ((j : ℤ) - (m : ℤ)) =
        ∑ m ∈ Finset.range (max (j + 1) a.length), a.getD m 0 * getZ v ((j : ℤ) - (m : ℤ)) := by
      apply Finset.sum_subset (Finset.range_subset.mpr (by omega))
      intro m hm hnm
      have hm2 : ¬ m < a.length := fun hc => hnm (Finset.mem_range.mpr hc)
      rw [List.getD_eq_default _ _ (by omega)]
      ring
    rw [h2]
    exact h3.symm
  · rw [if_neg hj]
    symm
    apply Finset.sum_eq_zero
    intro m hm
    have hm1 := Finset.mem_range.mp hm
    rw [getZ_ge_length v _ (by omega)]
    ring

/-- Pointwise description of the half-kernel-trimmed convolution
`np.convolve(a, v, mode='full')[halfL:]`. -/
theorem convDrop_getD (a v : List ℚ) (h j : ℕ) :
    ((npConvolve a v).drop h).getD j 0 =
      ∑ m ∈ Finset.range a.length, a.getD m 0 * getZ v ((j : ℤ) + (h : ℤ) - (m : ℤ)) := by
  rw [getD_drop, npConvolve_getD]
  apply Finset.sum_congr rfl
  intro m _
  congr 2
  push_cast
  ring

theorem length_addAt (row : List ℚ) (s : ℕ) (seg : List ℚ) :
    (addAt row s seg).length = row.length := by
  simp [addAt]

theorem addAt_getD (row : List ℚ) (st : ℕ) (seg : List ℚ) (i : ℕ) (hi : i < row.length) :
    (addAt row st seg).getD i 0 =
      row.getD i 0 + (if st ≤ i ∧ i < st + seg.length then seg.getD (i - st) 0 else 0) := by
  rw [addAt, getD_map_range, if_pos hi]
  rcases em (st ≤ i ∧ i < st + seg.length) with h | h <;> simp [h]

theorem addAt_getD_ge (row : List ℚ) (st : ℕ) (seg : List ℚ) (i : ℕ)
    (hi : row.length ≤ i) : (addAt row st seg).getD i 0 = 0 :=
  List.getD_eq_default _ _ (by rw [length_addAt]; exact hi)

/-- Spec of the in-place row-update loop over `range numElecs`: each listed
row index is rewritten once through `f`, rows are otherwise untouched. -/
theorem foldl_set_getD (f : ℕ → List ℚ → List ℚ) :
    ∀ (es : List ℕ) (L : List (List ℚ)), es.Nodup →
      ((es.foldl (fun cur e => cur.set e (f e (cur.getD e []))) L).length = L.length ∧
       ∀ e, (es.foldl (fun cur e => cur.set e (f e (cur.getD e []))) L).getD e [] =
         if e ∈ es ∧ e < L.length then f e (L.getD e []) else L.getD e []) := by
  intro es
  induction es with
  | nil =>
    intro L _
    refine ⟨rfl, fun e => ?_⟩
    rw [List.foldl_nil, if_neg (by simp)]
  | cons e0 rest ih =>
    intro L hnd
    have hnd' := (List.nodup_cons.mp hnd).2
    have he0 := (List.nodup_cons.mp hnd).1
    rcases ih (L.set e0 (f e0 (L.getD e0 []))) hnd' with ⟨ihlen, ihget⟩
    constructor
    · rw [List.foldl_cons, ihlen, List.length_set]
    · intro e
      rw [List.foldl_cons, ihget e, List.length_set]
      by_cases he : e = e0
      · subst he
        rw [if_neg (fun hc => he0 hc.1), getD_set]
        by_cases hlt : e < L.length
        · rw [if_pos ⟨rfl, hlt⟩, if_pos ⟨List.mem_cons_self _ _, hlt⟩]
        · rw [if_neg (fun hc => hlt hc.2), if_neg (fun hc => hlt hc.2)]
      · have hLe : (L.set e0 (f e0 (L.getD e0 []))).getD e [] = L.getD e [] := by
          rw [getD_set, if_neg (fun hc => he hc.1.symm)]
        rw [hLe]
        simp only [List.mem_cons, he, false_or]

theorem length_addSpikes (s : PDState) (ts : List ℚ) (fr : List ℚ) :
    (addSpikes s fr ts).length = fr.length := by
  induction ts generalizing fr with
  | nil => rfl
  | cons t ts ih =>
    simp only [addSpikes]
    split
    · rfl
    · rw [ih, List.length_set]

/-- The spike loop changes no firing-rate entry whose index is not the
nearest index of one of the (not dropped) spike times. -/
theorem addSpikes_getD_frame (s : PDState) (ts : List ℚ) (fr : List ℚ) (q : ℕ)
    (hq : ∀ t ∈ ts, ¬ t > tvecLast s → nearestIdx s t ≠ q) :
    (addSpikes s fr ts).getD q 0 = fr.getD q 0 := by
  induction ts generalizing fr with
  | nil => rfl
  | cons t ts ih =>
    simp only [addSpikes]
    split
    · rfl
    · rename_i hle
      rw [ih _ (fun u hu => hq u (List.mem_cons_of_mem _ hu)), getD_set,
        if_neg (fun hc => hq t (List.mem_cons_self _ _) hle hc.1)]

theorem getD_replicate_zero (n i : ℕ) : (List.replicate n (0 : ℚ)).getD i 0 = 0 := by
  by_cases h : i < n
  · rw [List.getD_eq_getElem _ _ (by simpa using h), List.getElem_replicate]
  · exact List.getD_eq_default _ _ (by simpa using Nat.le_of_not_lt h)

theorem addAt_take_getD (row seg : List ℚ) (i : ℕ) (hi : i < row.length) :
    (addAt row 0 (seg.take row.length)).getD i 0 = row.getD i 0 + seg.getD i 0 := by
  rw [addAt_getD _ _ _ _ hi]
  by_cases h : i < (seg.take row.length).length
  · rw [if_pos ⟨Nat.zero_le _, by omega⟩]
    simp only [Nat.sub_zero]
    rw [getD_take, if_pos hi]
  · rw [if_neg (by omega)]
    have hlen : seg.length ≤ i := by
      rw [List.length_take] at h
      omega
    rw [List.getD_eq_default _ _ hlen]

/-- The quantity the update invariant tracks: the value at channel `e` and
grid index `i` of the half-kernel-trimmed full convolution of each
population's entire current firing-rate array with its kernel, summed over
`pops`. -/
def lfpFormula (s : PDState) (pops : List String) (e i : ℕ) : ℚ :=
  (pops.map fun p =>
    ∑ m ∈ Finset.range (((s.popKernels p).getD e []).length),
      ((s.popKernels p).getD e []).getD m 0 *
        getZ (s.fr p) ((i : ℤ) + (s.halfL : ℤ) - (m : ℤ))).sum

theorem sanity_foldl_spec (s : PDState) (e : ℕ) :
    ∀ (pops : List String) (row0 : List ℚ),
      (pops.foldl (fun row popName =>
          addAt row 0 (((npConvolve ((s.popKernels popName).getD e [])
            (s.fr popName)).drop s.halfL).take row.length)) row0).length = row0.length ∧
      ∀ i, i < row0.length →
        (pops.foldl (fun row popName =>
          addAt row 0 (((npConvolve ((s.popKernels popName).getD e [])
            (s.fr popName)).drop s.halfL).take row.length)) row0).getD i 0 =
          row0.getD i 0 + (pops.map fun p =>
            ((npConvolve ((s.popKernels p).getD e []) (s.fr p)).drop s.halfL).getD i 0).sum := by
  intro pops
  induction pops with
  | nil =>
    intro row0
    exact ⟨rfl, fun i hi => by simp⟩
  | cons p ps ih =>
    intro row0
    rcases ih (addAt row0 0 (((npConvolve ((s.popKernels p).getD e [])
      (s.fr p)).drop s.halfL).take row0.length)) with ⟨ihlen, ihget⟩
    rw [length_addAt] at ihlen
    constructor
    · rw [List.foldl_cons]
      exact ihlen
    · intro i hi
      rw [List.foldl_cons, ihget i (by rw [length_addAt]; exact hi),
        addAt_take_getD _ _ _ hi, List.map_cons, List.sum_cons]
      ring

theorem sanityRow_length (s : PDState) (pops : List String) (e : ℕ) :
    (sanityRow s pops e).length = s.nT := by
  have h := (sanity_foldl_spec s e pops (List.replicate s.nT 0)).1
  rw [List.length_replicate] at h
  exact h

theorem sanityRow_getD (s : PDState) (pops : List String) (e i : ℕ) (hi : i < s.nT) :
    (sanityRow s pops e).getD i 0 = lfpFormula s pops e i := by
  have h := (sanity_foldl_spec s e pops (List.replicate s.nT 0)).2 i
    (by rw [List.length_replicate]; exact hi)
  rw [getD_replicate_zero, zero_add] at h
  rw [show sanityRow s pops e = pops.foldl (fun row popName =>
      addAt row 0 (((npConvolve ((s.popKernels popName).getD e [])
        (s.fr popName)).drop s.halfL).take row.length)) (List.replicate s.nT 0) from rfl, h,
    lfpFormula]
  congr 1
  apply List.map_congr_left
  intro p _
  rw [convDrop_getD]

theorem sanityTest_getD (s : PDState) (pops : List String) (e : ℕ) (he : e < s.numElecs) :
    (sanityTestConvolution s pops).getD e [] = sanityRow s pops e := by
  rw [sanityTestConvolution, List.getD_eq_getElem _ _ (by simpa using he),
    List.getElem_map, List.getElem_range]

theorem sanityTest_length (s : PDState) (pops : List String) :
    (sanityTestConvolution s pops).length = s.numElecs := by
  simp [sanityTestConvolution]

/-- Reading the window slice `fr[t0_idx:t1_idx]` (with zero padding) gives
exactly the difference between post- and pre-update firing rates, shifted
by the window start: the pre-update rates vanish from the window start on,
and the update touches nothing outside the window. -/
theorem slice_getZ (newFr oldFr : List ℚ) (a b : ℕ) (hab : a ≤ b)
    (hnew : b ≤ newFr.length)
    (hD0 : ∀ z : ℤ, z < (a : ℤ) ∨ (b : ℤ) ≤ z → getZ newFr z = getZ oldFr z)
    (hzero : ∀ i : ℕ, a ≤ i → oldFr.getD i 0 = 0) :
    ∀ w : ℤ, getZ ((newFr.drop a).take (b - a)) w =
      getZ newFr ((a : ℤ) + w) - getZ oldFr ((a : ℤ) + w) := by
  intro w
  by_cases hw : 0 ≤ w
  · obtain ⟨w', rfl⟩ : ∃ w' : ℕ, w = (w' : ℤ) := ⟨w.toNat, (Int.toNat_of_nonneg hw).symm⟩
    rw [getZ_ofNat, show (a : ℤ) + (w' : ℤ) = ((a + w' : ℕ) : ℤ) by push_cast; ring,
      getZ_ofNat, getZ_ofNat, getD_slice]
    by_cases hlt : w' < b - a
    · rw [if_pos hlt, hzero (a + w') (Nat.le_add_right _ _), sub_zero]
    · rw [if_neg hlt]
      have h0 := hD0 ((a + w' : ℕ) : ℤ) (Or.inr (by omega))
      rw [getZ_ofNat, getZ_ofNat] at h0
      rw [h0, sub_self]
  · rw [getZ_neg _ _ (by omega), hD0 _ (Or.inl (by omega)), sub_self]

theorem length_rowConvAdd (σ : PDState) (p : String) (fr_ : List ℚ)
    (sig0 sig1 e : ℕ) (row : List ℚ) :
    (rowConvAdd σ p fr_ sig0 sig1 e row).length = row.length := by
  simp only [rowConvAdd]
  split <;> rw [length_addAt]

/-- Effect of one electrode-loop iteration: for a window `[a, b)` holding
all of the batch's (binned) spikes for this population, adding the trimmed
windowed convolution into the LFP row adds, at every grid index, exactly
the difference between the full-history trimmed convolution of the new and
of the old firing rates — provided the kernel row vanishes on its first
`halfL` entries (otherwise the backward contributions in front of the
window are lost). -/
theorem rowConvAdd_spec (σ : PDState) (p : String) (newFr oldFr : List ℚ)
    (a b sig1 : ℕ) (e : ℕ) (row : List ℚ)
    (hrow : row.length = σ.nT)
    (hnew : newFr.length = σ.nT)
    (hhalf : 1 ≤ σ.halfL) (hab : a < b) (hbn : b ≤ σ.nT)
    (hsig : sig1 = min (b + σ.halfL - 1) σ.nT)
    (hk : ((σ.popKernels p).getD e []).length = 2 * σ.halfL)
    (hcaus : ∀ m, m < σ.halfL → ((σ.popKernels p).getD e []).getD m 0 = 0)
    (hD0 : ∀ z : ℤ, z < (a : ℤ) ∨ (b : ℤ) ≤ z → getZ newFr z = getZ oldFr z)
    (hzero : ∀ i : ℕ, a ≤ i → oldFr.getD i 0 = 0) (i : ℕ) (hi : i < σ.nT) :
    (rowConvAdd σ p ((newFr.drop a).take (b - a)) a sig1 e row).getD i 0 =
      row.getD i 0 +
      ((∑ m ∈ Finset.range ((σ.popKernels p).getD e []).length,
        ((σ.popKernels p).getD e []).getD m 0 *
          getZ newFr ((i : ℤ) + (σ.halfL : ℤ) - (m : ℤ))) -
       (∑ m ∈ Finset.range ((σ.popKernels p).getD e []).length,
        ((σ.popKernels p).getD e []).getD m 0 *
          getZ oldFr ((i : ℤ) + (σ.halfL : ℤ) - (m : ℤ)))) := by
  have hΔ : ∀ i' : ℤ,
      ((∑ m ∈ Finset.range ((σ.popKernels p).getD e []).length,
        ((σ.popKernels p).getD e []).getD m 0 * getZ newFr (i' + (σ.halfL : ℤ) - (m : ℤ))) -
       (∑ m ∈ Finset.range ((σ.popKernels p).getD e []).length,
        ((σ.popKernels p).getD e []).getD m 0 * getZ oldFr (i' + (σ.halfL : ℤ) - (m : ℤ)))) =
      ∑ m ∈ Finset.range ((σ.popKernels p).getD e []).length,
        ((σ.popKernels p).getD e []).getD m 0 *
          (getZ newFr (i' + (σ.halfL : ℤ) - (m : ℤ)) -
           getZ oldFr (i' + (σ.halfL : ℤ) - (m : ℤ))) := by
    intro i'
    rw [← Finset.sum_sub_distrib]
    apply Finset.sum_congr rfl
    intro m _
    ring
  rw [hΔ]
  have hfrlen : ((newFr.drop a).take (b - a)).length = b - a := by
    rw [List.length_take, List.length_drop, hnew]
    omega
  have hB2 := slice_getZ newFr oldFr a b (le_of_lt hab) (by omega) hD0 hzero
  have hseg_getD : ∀ j : ℕ,
      ((npConvolve ((σ.popKernels p).getD e []) ((newFr.drop a).take (b - a))).drop
        σ.halfL).getD j 0 =
      ∑ m ∈ Finset.range ((σ.popKernels p).getD e []).length,
        ((σ.popKernels p).getD e []).getD m 0 *
          (getZ newFr (((a + j : ℕ) : ℤ) + (σ.halfL : ℤ) - (m : ℤ)) -
           getZ oldFr (((a + j : ℕ) : ℤ) + (σ.halfL : ℤ) - (m : ℤ))) := by
    intro j
    rw [convDrop_getD]
    apply Finset.sum_congr rfl
    intro m _
    rw [show ((j : ℤ) + (σ.halfL : ℤ) - (m : ℤ)) =
      ((a : ℤ) + ((j : ℤ) + (σ.halfL : ℤ) - (m : ℤ))) - (a : ℤ) by ring]
    rw [show ((a : ℤ) + ((j : ℤ) + (σ.halfL : ℤ) - (m : ℤ))) - (a : ℤ) =
      (j : ℤ) + (σ.halfL : ℤ) - (m : ℤ) by ring]
    rw [hB2]
    congr 2 <;> push_cast <;> ring
  have hseglen : ((npConvolve ((σ.popKernels p).getD e [])
      ((newFr.drop a).take (b - a))).drop σ.halfL).length = b - a + σ.halfL - 1 := by
    rw [List.length_drop, length_npConvolve, hfrlen, hk]
    omega
  have hdest : ((row.drop a).take (sig1 - a)).length = sig1 - a := by
    rw [List.length_take, List.length_drop, hrow]
    omega
  have hcollapse : rowConvAdd σ p ((newFr.drop a).take (b - a)) a sig1 e row =
      addAt row a (((npConvolve ((σ.popKernels p).getD e [])
        ((newFr.drop a).take (b - a))).drop σ.halfL).take (sig1 - a)) := by
    simp only [rowConvAdd]
    split
    · rename_i hbr
      rw [hdest] at hbr
      rw [hbr, List.take_length]
    · rfl
  rw [hcollapse, addAt_getD _ _ _ _ (by omega)]
  have htlen : (((npConvolve ((σ.popKernels p).getD e [])
      ((newFr.drop a).take (b - a))).drop σ.halfL).take (sig1 - a)).length = sig1 - a := by
    rw [List.length_take, hseglen]
    omega
  rw [htlen]
  congr 1
  by_cases hia : a ≤ i
  · by_cases his : i < a + (sig1 - a)
    · rw [if_pos ⟨hia, his⟩, getD_take, if_pos (by omega), hseg_getD]
      apply Finset.sum_congr rfl
      intro m _
      congr 2 <;> rw [show (a + (i - a) : ℕ) = i by omega]
    · rw [if_neg (fun hc => his hc.2)]
      symm
      apply Finset.sum_eq_zero
      intro m hm
      have hm1 := Finset.mem_range.mp hm
      rw [hk] at hm1
      rw [hD0 _ (Or.inr (by omega)), sub_self, mul_zero]
  · rw [if_neg (fun hc => hia hc.1)]
    symm
    apply Finset.sum_eq_zero
    intro m hm
    by_cases hmh : m < σ.halfL
    · rw [hcaus m hmh, zero_mul]
    · rw [hD0 _ (Or.inl (by omega)), sub_self, mul_zero]

/-- Shape invariants of the mutable state: firing-rate arrays and LFP rows
span the time grid, the LFP has one row per electrode. -/
def goodShape (s : PDState) : Prop :=
  (∀ p, (s.fr p).length = s.nT) ∧ s.lfp.length = s.numElecs ∧
    ∀ e, e < s.numElecs → (s.lfp.getD e []).length = s.nT

theorem map_sum_update (pops : List String) (f g : String → ℚ) (p : String)
    (hnd : pops.Nodup) (hp : p ∈ pops) (hfg : ∀ q, q ≠ p → f q = g q) :
    (pops.map f).sum = (pops.map g).sum + (f p - g p) := by
  induction pops with
  | nil => simp at hp
  | cons q ps ih =>
    rcases List.mem_cons.mp hp with hq | hq
    · subst hq
      have hnotin := (List.nodup_cons.mp hnd).1
      have hmaps : ps.map f = ps.map g :=
        List.map_congr_left fun x hx => hfg x (fun hc => hnotin (hc ▸ hx))
      rw [List.map_cons, List.map_cons, List.sum_cons, List.sum_cons, hmaps]
      ring
    · have hqp : q ≠ p := by
        intro hc
        subst hc
        exact (List.nodup_cons.mp hnd).1 hq
      rw [List.map_cons, List.map_cons, List.sum_cons, List.sum_cons,
        ih (List.nodup_cons.mp hnd).2 hq, hfg q hqp]
      ring

theorem insertKey_mem (l : List ℚ) (y x : ℚ) : x ∈ insertKey l y ↔ x ∈ l ∨ x = y := by
  rw [insertKey]
  split
  · rename_i hy
    constructor
    · exact Or.inl
    · rintro (h | rfl)
      · exact h
      · exact hy
  · simp [List.mem_append]

theorem insertKey_nodup (l : List ℚ) (y : ℚ) (h : l.Nodup) : (insertKey l y).Nodup := by
  rw [insertKey]
  split
  · exact h
  · rename_i hy
    simp [List.nodup_append, h, hy]

theorem foldl_insertKey_mem (l : List SpikeEvent) :
    ∀ (acc : List ℚ) (x : ℚ),
      (x ∈ l.foldl (fun acc e => insertKey acc e.popId) acc ↔
        x ∈ acc ∨ ∃ ev ∈ l, ev.popId = x) := by
  induction l with
  | nil => simp
  | cons e es ih =>
    intro acc x
    rw [List.foldl_cons, ih, insertKey_mem]
    constructor
    · rintro ((h | rfl) | ⟨ev, hev, rfl⟩)
      · exact Or.inl h
      · exact Or.inr ⟨e, List.mem_cons_self _ _, rfl⟩
      · exact Or.inr ⟨ev, List.mem_cons_of_mem _ hev, rfl⟩
    · rintro (h | ⟨ev, hev, rfl⟩)
      · exact Or.inl (Or.inl h)
      · rcases List.mem_cons.mp hev with rfl | hev'
        · exact Or.inl (Or.inr rfl)
        · exact Or.inr ⟨ev, hev', rfl⟩

theorem foldl_insertKey_nodup (l : List SpikeEvent) :
    ∀ acc : List ℚ, acc.Nodup → (l.foldl (fun acc e => insertKey acc e.popId) acc).Nodup := by
  induction l with
  | nil => intro acc h; exact h
  | cons e es ih =>
    intro acc h
    rw [List.foldl_cons]
    exact ih _ (insertKey_nodup _ _ h)

theorem bufferPopIds_mem (buffer : List SpikeEvent) (x : ℚ) :
    x ∈ bufferPopIds buffer ↔ ∃ ev ∈ buffer, ev.popId = x := by
  rw [bufferPopIds, foldl_insertKey_mem]
  simp

theorem bufferPopIds_nodup (buffer : List SpikeEvent) : (bufferPopIds buffer).Nodup :=
  foldl_insertKey_nodup _ _ List.nodup_nil

theorem foldl_insertKey_length (l : List SpikeEvent) :
    ∀ acc : List ℚ, acc.length ≤ (l.foldl (fun acc e => insertKey acc e.popId) acc).length := by
  induction l with
  | nil => intro acc; exact le_rfl
  | cons e es ih =>
    intro acc
    rw [List.foldl_cons]
    refine le_trans ?_ (ih _)
    rw [insertKey]
    split
    · exact le_rfl
    · simp

theorem bufferPopIds_ne_nil (buffer : List SpikeEvent) (h : buffer ≠ []) :
    bufferPopIds buffer ≠ [] := by
  cases buffer with
  | nil => exact absurd rfl h
  | cons e es =>
    intro hc
    have h1 := foldl_insertKey_length es (insertKey [] e.popId)
    rw [bufferPopIds, List.foldl_cons] at hc
    rw [hc] at h1
    rw [insertKey] at h1
    simp at h1

theorem mem_spiketimes {buffer : List SpikeEvent} {pid : ℚ} {t : ℚ}
    (h : t ∈ (buffer.filter fun e => decide (e.popId = pid)).map SpikeEvent.t) :
    ∃ ev ∈ buffer, ev.t = t := by
  rcases List.mem_map.mp h with ⟨ev, hev, rfl⟩
  exact ⟨ev, (List.mem_filter.mp hev).1, rfl⟩

theorem stepPop_some_statics {buffer : List SpikeEvent} {a b : ℕ} {s s2 : PDState}
    {pid : ℚ} (hstep : stepPop buffer a b s pid = some s2) :
    s2.dt = s.dt ∧ s2.nT = s.nT ∧ s2.halfL = s.halfL ∧ s2.numElecs = s.numElecs ∧
      s2.popIDs = s.popIDs ∧ s2.popKernels = s.popKernels := by
  simp only [stepPop] at hstep
  split at hstep
  · exact absurd hstep (by simp)
  · cases hstep
    exact ⟨rfl, rfl, rfl, rfl, rfl, rfl⟩

theorem processPops_statics (buffer : List SpikeEvent) (a b : ℕ) :
    ∀ (pids : List ℚ) (s : PDState),
      (processPops buffer a b s pids).1.dt = s.dt ∧
      (processPops buffer a b s pids).1.nT = s.nT ∧
      (processPops buffer a b s pids).1.halfL = s.halfL ∧
      (processPops buffer a b s pids).1.numElecs = s.numElecs ∧
      (processPops buffer a b s pids).1.popIDs = s.popIDs ∧
      (processPops buffer a b s pids).1.popKernels = s.popKernels := by
  intro pids
  induction pids with
  | nil => intro s; exact ⟨rfl, rfl, rfl, rfl, rfl, rfl⟩
  | cons pid rest ih =>
    intro s
    simp only [processPops]
    split
    · exact ⟨rfl, rfl, rfl, rfl, rfl, rfl⟩
    · rename_i s2 heq
      obtain ⟨h1, h2, h3, h4, h5, h6⟩ := stepPop_some_statics heq
      obtain ⟨g1, g2, g3, g4, g5, g6⟩ := ih s2
      exact ⟨g1.trans h1, g2.trans h2, g3.trans h3, g4.trans h4, g5.trans h5, g6.trans h6⟩

theorem update_statics (s : PDState) (buffer : List SpikeEvent) :
    (update s buffer).1.dt = s.dt ∧
    (update s buffer).1.nT = s.nT ∧
    (update s buffer).1.halfL = s.halfL ∧
    (update s buffer).1.numElecs = s.numElecs ∧
    (update s buffer).1.popIDs = s.popIDs ∧
    (update s buffer).1.popKernels = s.popKernels := by
  rw [update]
  split
  · exact ⟨rfl, rfl, rfl, rfl, rfl, rfl⟩
  · exact processPops_statics _ _ _ _ _

theorem popUpdState_fr (buffer : List SpikeEvent) (a b : ℕ) (s : PDState)
    (pid : ℚ) (popName : String) :
    (popUpdState buffer a b s pid popName).fr = fun q =>
      if q = popName then
        addSpikes s (s.fr popName)
          ((buffer.filter fun e => decide (e.popId = pid)).map SpikeEvent.t)
      else s.fr q := rfl

theorem popUpdState_lfp (buffer : List SpikeEvent) (a b : ℕ) (s : PDState)
    (pid : ℚ) (popName : String) :
    (popUpdState buffer a b s pid popName).lfp =
      (List.range s.numElecs).foldl
        (fun cur e => cur.set e (rowConvAdd s popName
          (((addSpikes s (s.fr popName)
            ((buffer.filter fun e => decide (e.popId = pid)).map SpikeEvent.t)).drop a).take
              (b - a))
          a (if b + s.halfL - 1 < s.nT then b + s.halfL - 1 else s.nT)
          e (cur.getD e []))) s.lfp := rfl

/-- Effect of one population-loop iteration under the incremental-update
invariant: the error-free step keeps the state well-shaped, changes the
population's firing rates only inside the batch window, leaves other
populations' firing rates untouched, and keeps every LFP entry equal to
the trimmed full-history convolution of the (new) firing rates. -/
theorem popUpdState_spec (pops : List String) (hpops : pops.Nodup)
    (buffer : List SpikeEvent) (a b : ℕ) (s : PDState) (pid : ℚ) (p : String)
    (hp : p ∈ pops)
    (hzero : ∀ i : ℕ, a ≤ i → (s.fr p).getD i 0 = 0)
    (hev : ∀ ev ∈ buffer, ¬ ev.t > tvecLast s ∧ a ≤ nearestIdx s ev.t ∧
      nearestIdx s ev.t < b)
    (hker : ∀ e, e < s.numElecs → ((s.popKernels p).getD e []).length = 2 * s.halfL ∧
      ∀ m, m < s.halfL → ((s.popKernels p).getD e []).getD m 0 = 0)
    (hhalf : 1 ≤ s.halfL) (hab : a < b) (hbn : b ≤ s.nT)
    (hgood : goodShape s)
    (hinv : ∀ e i, e < s.numElecs → i < s.nT →
      (s.lfp.getD e []).getD i 0 = lfpFormula s pops e i) :
    (∀ q, q ≠ p → (popUpdState buffer a b s pid p).fr q = s.fr q) ∧
    goodShape (popUpdState buffer a b s pid p) ∧
    (∀ q i, i < a ∨ b ≤ i →
      ((popUpdState buffer a b s pid p).fr q).getD i 0 = (s.fr q).getD i 0) ∧
    (∀ e i, e < s.numElecs → i < s.nT →
      ((popUpdState buffer a b s pid p).lfp.getD e []).getD i 0 =
        lfpFormula (popUpdState buffer a b s pid p) pops e i) := by
  obtain ⟨hfrlen, hlfplen, hrowlen⟩ := hgood
  have hfr2 := popUpdState_fr buffer a b s pid p
  have hlfp2 := popUpdState_lfp buffer a b s pid p
  set ts := (buffer.filter fun e => decide (e.popId = pid)).map SpikeEvent.t with hts
  set newFr := addSpikes s (s.fr p) ts with hnf
  set sig1 := if b + s.halfL - 1 < s.nT then b + s.halfL - 1 else s.nT with hsig1
  have hsigmin : sig1 = min (b + s.halfL - 1) s.nT := by
    rw [hsig1]
    split <;> omega
  have hnewlen : newFr.length = s.nT := by
    rw [hnf, length_addSpikes, hfrlen]
  have hframe : ∀ q : ℕ, q < a ∨ b ≤ q → newFr.getD q 0 = (s.fr p).getD q 0 := by
    intro q hq
    rw [hnf]
    apply addSpikes_getD_frame
    intro t ht _
    obtain ⟨ev, hev', rfl⟩ := mem_spiketimes ht
    have hw := (hev ev hev').2
    omega
  have hD0 : ∀ z : ℤ, z < (a : ℤ) ∨ (b : ℤ) ≤ z → getZ newFr z = getZ (s.fr p) z := by
    intro z hz
    by_cases h0 : 0 ≤ z
    · obtain ⟨w, rfl⟩ : ∃ w : ℕ, z = (w : ℤ) := ⟨z.toNat, (Int.toNat_of_nonneg h0).symm⟩
      rw [getZ_ofNat, getZ_ofNat]
      exact hframe w (by omega)
    · rw [getZ_neg _ _ (by omega), getZ_neg _ _ (by omega)]
  have hfold := foldl_set_getD
    (fun e row => rowConvAdd s p ((newFr.drop a).take (b - a)) a sig1 e row)
    (List.range s.numElecs) s.lfp (List.nodup_range _)
  have hrowdesc : ∀ e, e < s.numElecs →
      (popUpdState buffer a b s pid p).lfp.getD e [] =
        rowConvAdd s p ((newFr.drop a).take (b - a)) a sig1 e (s.lfp.getD e []) := by
    intro e he
    rw [hlfp2, hfold.2 e, if_pos ⟨List.mem_range.mpr he, by omega⟩]
  have hrowdesc' : ∀ e, ¬ e < s.numElecs →
      (popUpdState buffer a b s pid p).lfp.getD e [] = s.lfp.getD e [] := by
    intro e he
    rw [hlfp2, hfold.2 e, if_neg (fun hc => he (List.mem_range.mp hc.1))]
  have hfr2q : ∀ q, (popUpdState buffer a b s pid p).fr q =
      if q = p then newFr else s.fr q := by
    intro q
    rw [hfr2]
  have hfrother : ∀ q, q ≠ p → (popUpdState buffer a b s pid p).fr q = s.fr q := by
    intro q hq
    rw [hfr2q, if_neg hq]
  have hgood2 : goodShape (popUpdState buffer a b s pid p) := by
    refine ⟨fun q => ?_, ?_, fun e he => ?_⟩
    · show ((popUpdState buffer a b s pid p).fr q).length = s.nT
      rw [hfr2q]
      split
      · exact hnewlen
      · exact hfrlen q
    · show (popUpdState buffer a b s pid p).lfp.length = s.numElecs
      rw [hlfp2, hfold.1, hlfplen]
    · show ((popUpdState buffer a b s pid p).lfp.getD e []).length = s.nT
      have he' : e < s.numElecs := he
      rw [hrowdesc e he', length_rowConvAdd, hrowlen e he']
  have hframe2 : ∀ q i, i < a ∨ b ≤ i →
      ((popUpdState buffer a b s pid p).fr q).getD i 0 = (s.fr q).getD i 0 := by
    intro q i hi
    rw [hfr2q]
    split
    · rename_i hqp
      subst hqp
      exact hframe i hi
    · rfl
  refine ⟨hfrother, hgood2, hframe2, ?_⟩
  intro e i he hi
  have hform : lfpFormula (popUpdState buffer a b s pid p) pops e i =
      lfpFormula s pops e i +
      ((∑ m ∈ Finset.range ((s.popKernels p).getD e []).length,
        ((s.popKernels p).getD e []).getD m 0 *
          getZ newFr ((i : ℤ) + (s.halfL : ℤ) - (m : ℤ))) -
       (∑ m ∈ Finset.range ((s.popKernels p).getD e []).length,
        ((s.popKernels p).getD e []).getD m 0 *
          getZ (s.fr p) ((i : ℤ) + (s.halfL : ℤ) - (m : ℤ)))) := by
    have hlhs : lfpFormula (popUpdState buffer a b s pid p) pops e i =
        (pops.map fun q =>
          ∑ m ∈ Finset.range ((s.popKernels q).getD e []).length,
            ((s.popKernels q).getD e []).getD m 0 *
              getZ (if q = p then newFr else s.fr q)
                ((i : ℤ) + (s.halfL : ℤ) - (m : ℤ))).sum := rfl
    have hmsu := map_sum_update pops
      (fun q => ∑ m ∈ Finset.range ((s.popKernels q).getD e []).length,
        ((s.popKernels q).getD e []).getD m 0 *
          getZ (if q = p then newFr else s.fr q) ((i : ℤ) + (s.halfL : ℤ) - (m : ℤ)))
      (fun q => ∑ m ∈ Finset.range ((s.popKernels q).getD e []).length,
        ((s.popKernels q).getD e []).getD m 0 *
          getZ (s.fr q) ((i : ℤ) + (s.halfL : ℤ) - (m : ℤ)))
      p hpops hp (fun q hq => by simp only [if_neg hq])
    rw [hlhs, hmsu]
    have hifp : (if p = p then newFr else s.fr p) = newFr := if_pos rfl
    simp only [hifp]
    rfl
  rw [hform, hrowdesc e he,
    rowConvAdd_spec s p newFr (s.fr p) a b sig1 e (s.lfp.getD e [])
      (hrowlen e he) hnewlen hhalf hab hbn hsigmin (hker e he).1 (hker e he).2
      hD0 hzero i hi, hinv e i he hi]

/-- Invariant preservation across the whole population loop of one
`update` call. -/
theorem processPops_spec (pops : List String) (hpops : pops.Nodup)
    (buffer : List SpikeEvent) (a b : ℕ) :
    ∀ (pids : List ℚ) (s : PDState),
      pids.Nodup →
      (∀ pid ∈ pids, ∃ p ∈ pops, lookupPopID s.popIDs pid = some p) →
      (∀ pid pid' q, lookupPopID s.popIDs pid = some q →
        lookupPopID s.popIDs pid' = some q → pid = pid') →
      (∀ pid ∈ pids, ∀ q, lookupPopID s.popIDs pid = some q →
        ∀ i : ℕ, a ≤ i → (s.fr q).getD i 0 = 0) →
      (∀ ev ∈ buffer, ¬ ev.t > tvecLast s ∧ a ≤ nearestIdx s ev.t ∧
        nearestIdx s ev.t < b) →
      (∀ p ∈ pops, ∀ e, e < s.numElecs →
        ((s.popKernels p).getD e []).length = 2 * s.halfL ∧
        ∀ m, m < s.halfL → ((s.popKernels p).getD e []).getD m 0 = 0) →
      1 ≤ s.halfL → a < b → b ≤ s.nT → goodShape s →
      (∀ e i, e < s.numElecs → i < s.nT →
        (s.lfp.getD e []).getD i 0 = lfpFormula s pops e i) →
      ((processPops buffer a b s pids).2 = false ∧
       goodShape (processPops buffer a b s pids).1 ∧
       (∀ q i, i < a ∨ b ≤ i →
         ((processPops buffer a b s pids).1.fr q).getD i 0 = (s.fr q).getD i 0) ∧
       (∀ e i, e < s.numElecs → i < s.nT →
         ((processPops buffer a b s pids).1.lfp.getD e []).getD i 0 =
           lfpFormula (processPops buffer a b s pids).1 pops e i)) := by
  intro pids
  induction pids with
  | nil =>
    intro s _ _ _ _ _ _ _ _ _ hgood hinv
    exact ⟨rfl, hgood, fun q i _ => rfl, hinv⟩
  | cons pid rest ih =>
    intro s hnd hmap hinj hzero hev hker hhalf hab hbn hgood hinv
    obtain ⟨p, hp, hlook⟩ := hmap pid (List.mem_cons_self _ _)
    obtain ⟨hfrother, hgood2, hframe2, hinv2⟩ :=
      popUpdState_spec pops hpops buffer a b s pid p hp
        (hzero pid (List.mem_cons_self _ _) p hlook) hev
        (fun e he => hker p hp e he) hhalf hab hbn hgood hinv
    have hpp : processPops buffer a b s (pid :: rest) =
        processPops buffer a b (popUpdState buffer a b s pid p) rest := by
      simp only [processPops, stepPop, hlook]
    set s2 := popUpdState buffer a b s pid p with hs2
    have hpidnotin : pid ∉ rest := (List.nodup_cons.mp hnd).1
    have hzero2 : ∀ pid' ∈ rest, ∀ q, lookupPopID s2.popIDs pid' = some q →
        ∀ i : ℕ, a ≤ i → (s2.fr q).getD i 0 = 0 := by
      intro pid' hpid' q hlook' i hi
      have hlook'' : lookupPopID s.popIDs pid' = some q := hlook'
      have hqp : q ≠ p := by
        intro hc
        subst hc
        exact hpidnotin ((hinj pid' pid q hlook'' hlook) ▸ hpid')
      rw [show s2.fr q = s.fr q from hfrother q hqp]
      exact hzero pid' (List.mem_cons_of_mem _ hpid') q hlook'' i hi
    obtain ⟨rflag, rgood, rframe, rinv⟩ := ih s2 (List.nodup_cons.mp hnd).2
      (fun pid' hpid' => hmap pid' (List.mem_cons_of_mem _ hpid'))
      hinj hzero2 hev hker hhalf hab hbn hgood2 hinv2
    refine ⟨?_, ?_, ?_, ?_⟩
    · rw [hpp]
      exact rflag
    · rw [hpp]
      exact rgood
    · intro q i hi
      rw [hpp, rframe q i hi]
      exact hframe2 q i hi
    · intro e i he hi
      rw [hpp]
      exact rinv e i he hi

/-- One error-free `update` call on a non-empty batch of in-horizon spikes
of known populations, starting from a state whose firing rates vanish from
the batch window on: the call reports no error, keeps the state well
shaped, changes firing rates only inside the nearest-index window
`[t0_idx, t1_idx)` of the batch, and keeps every LFP entry equal to the
trimmed full-history convolution of the updated firing rates. -/
theorem update_spec (pops : List String) (hpops : pops.Nodup) (s : PDState)
    (buffer : List SpikeEvent)
    (hne : buffer ≠ [])
    (hdt : 0 < s.dt) (hnT : 1 ≤ s.nT) (hhalf : 1 ≤ s.halfL)
    (hmap : ∀ ev ∈ buffer, ∃ p ∈ pops, lookupPopID s.popIDs ev.popId = some p)
    (hinj : ∀ pid pid' q, lookupPopID s.popIDs pid = some q →
      lookupPopID s.popIDs pid' = some q → pid = pid')
    (htimes : ∀ ev ∈ buffer, 0 ≤ ev.t ∧ ev.t ≤ tvecLast s)
    (hzero : ∀ p ∈ pops, ∀ i : ℕ,
      nearestIdx s (listMin (buffer.map SpikeEvent.t)) ≤ i → (s.fr p).getD i 0 = 0)
    (hker : ∀ p ∈ pops, ∀ e, e < s.numElecs →
      ((s.popKernels p).getD e []).length = 2 * s.halfL ∧
      ∀ m, m < s.halfL → ((s.popKernels p).getD e []).getD m 0 = 0)
    (hgood : goodShape s)
    (hinv : ∀ e i, e < s.numElecs → i < s.nT →
      (s.lfp.getD e []).getD i 0 = lfpFormula s pops e i) :
    (update s buffer).2 = false ∧
    goodShape (update s buffer).1 ∧
    (∀ q i, i < nearestIdx s (listMin (buffer.map SpikeEvent.t)) ∨
      nearestIdx s (listMax (buffer.map SpikeEvent.t)) + 1 ≤ i →
      ((update s buffer).1.fr q).getD i 0 = (s.fr q).getD i 0) ∧
    (∀ e i, e < s.numElecs → i < s.nT →
      ((update s buffer).1.lfp.getD e []).getD i 0 =
        lfpFormula (update s buffer).1 pops e i) := by
  have hlen0 : ¬ buffer.length = 0 := by
    intro hc
    exact hne (List.length_eq_zero.mp hc)
  have hupd : update s buffer = processPops buffer
      (nearestIdx s (listMin (buffer.map SpikeEvent.t)))
      (nearestIdx s (listMax (buffer.map SpikeEvent.t)) + 1) s
      (bufferPopIds buffer) := by
    rw [update, if_neg hlen0]
  set a := nearestIdx s (listMin (buffer.map SpikeEvent.t)) with ha
  set b := nearestIdx s (listMax (buffer.map SpikeEvent.t)) + 1 with hb
  have htne : buffer.map SpikeEvent.t ≠ [] := by
    intro hc
    have := congrArg List.length hc
    simp only [List.length_map, List.length_nil] at this
    omega
  obtain ⟨ev0, hev0, hev0t⟩ : ∃ ev ∈ buffer, ev.t = listMin (buffer.map SpikeEvent.t) := by
    have hm := listMin_mem _ htne
    rcases List.mem_map.mp hm with ⟨ev, hev, het⟩
    exact ⟨ev, hev, het⟩
  obtain ⟨ev1, hev1, hev1t⟩ : ∃ ev ∈ buffer, ev.t = listMax (buffer.map SpikeEvent.t) := by
    have hm := listMax_mem _ htne
    rcases List.mem_map.mp hm with ⟨ev, hev, het⟩
    exact ⟨ev, hev, het⟩
  have ht0 : 0 ≤ listMin (buffer.map SpikeEvent.t) ∧
      listMin (buffer.map SpikeEvent.t) ≤ tvecLast s := hev0t ▸ htimes ev0 hev0
  have ht1 : 0 ≤ listMax (buffer.map SpikeEvent.t) ∧
      listMax (buffer.map SpikeEvent.t) ≤ tvecLast s := hev1t ▸ htimes ev1 hev1
  have hwindow : ∀ ev ∈ buffer, ¬ ev.t > tvecLast s ∧ a ≤ nearestIdx s ev.t ∧
      nearestIdx s ev.t < b := by
    intro ev hev
    obtain ⟨hevt0, hevt1⟩ := htimes ev hev
    have hmin : listMin (buffer.map SpikeEvent.t) ≤ ev.t :=
      listMin_le _ _ (List.mem_map.mpr ⟨ev, hev, rfl⟩)
    have hmax : ev.t ≤ listMax (buffer.map SpikeEvent.t) :=
      le_listMax _ _ (List.mem_map.mpr ⟨ev, hev, rfl⟩)
    refine ⟨not_lt.mpr hevt1, ?_, ?_⟩
    · rw [ha]
      exact nearestIdxP_mono s.dt s.nT hdt hnT ht0.1 hevt1 hmin
    · rw [hb]
      have h1 := nearestIdxP_mono s.dt s.nT hdt hnT hevt0 ht1.2 hmax
      have h2 : nearestIdx s ev.t ≤ nearestIdx s (listMax (buffer.map SpikeEvent.t)) := h1
      omega
  have hb_le : b ≤ s.nT := by
    rw [hb]
    have h1 := nearestIdxP_lt s.dt s.nT (listMax (buffer.map SpikeEvent.t)) hnT
    have h2 : nearestIdx s (listMax (buffer.map SpikeEvent.t)) < s.nT := h1
    omega
  have hab : a < b := by
    have := (hwindow ev0 hev0).2.1
    have h2 := (hwindow ev0 hev0).2.2
    omega
  have hproc := processPops_spec pops hpops buffer a b (bufferPopIds buffer) s
    (bufferPopIds_nodup buffer)
    (fun pid hpid => by
      obtain ⟨ev, hev, hevid⟩ := (bufferPopIds_mem buffer pid).mp hpid
      exact hevid ▸ hmap ev hev)
    hinj
    (fun pid hpid q hlookq i hi => by
      obtain ⟨ev, hev, hevid⟩ := (bufferPopIds_mem buffer pid).mp hpid
      obtain ⟨p, hppop, hlookp⟩ := hmap ev hev
      rw [hevid] at hlookp
      have hqp : q = p := by
        rw [hlookq] at hlookp
        exact Option.some_injective _ hlookp
      exact hzero q (hqp ▸ hppop) i hi)
    hwindow hker hhalf hab hb_le hgood hinv
  rw [hupd]
  exact hproc

theorem getD_replicate {α : Type} (d x : α) (n i : ℕ) (h : i < n) :
    (List.replicate n x).getD i d = x := by
  rw [List.getD_eq_getElem _ _ (by simpa using h), List.getElem_replicate]

theorem getZ_replicate_zero (n : ℕ) (z : ℤ) : getZ (List.replicate n (0 : ℚ)) z = 0 := by
  unfold getZ
  split
  · exact getD_replicate_zero _ _
  · rfl

theorem ext_by_getD {α : Type} (d : α) (l1 l2 : List α) (hlen : l1.length = l2.length)
    (h : ∀ i, i < l1.length → l1.getD i d = l2.getD i d) : l1 = l2 := by
  apply List.ext_getElem hlen
  intro n h1 h2
  have h3 := h n h1
  rwa [List.getD_eq_getElem _ _ h1, List.getD_eq_getElem _ _ h2] at h3

/-- Well-formedness of a batch sequence for incremental updating, threaded
through a running lower bound on the nearest-index windows: every batch is
non-empty, all its spikes are in-horizon and reference registered
populations, and its nearest-index window starts at or after the previous
batch's window end (disjoint, time-ordered batches that also bin to
disjoint index windows). -/
def BatchesOK (s0 : PDState) (pops : List String) : ℕ → List (List SpikeEvent) → Prop
  | _, [] => True
  | bound, buffer :: rest =>
    buffer ≠ [] ∧
    (∀ ev ∈ buffer, 0 ≤ ev.t ∧ ev.t ≤ tvecLast s0) ∧
    (∀ ev ∈ buffer, ∃ p ∈ pops, lookupPopID s0.popIDs ev.popId = some p) ∧
    bound ≤ nearestIdx s0 (listMin (buffer.map SpikeEvent.t)) ∧
    BatchesOK s0 pops (nearestIdx s0 (listMax (buffer.map SpikeEvent.t)) + 1) rest

/-- The incremental-update invariant survives any `BatchesOK` sequence of
`update` calls. -/
theorem runBatches_spec (pops : List String) (hpops : pops.Nodup) (s0 : PDState)
    (hdt : 0 < s0.dt) (hnT : 1 ≤ s0.nT) (hhalf : 1 ≤ s0.halfL)
    (hinj : ∀ pid pid' q, lookupPopID s0.popIDs pid = some q →
      lookupPopID s0.popIDs pid' = some q → pid = pid')
    (hker : ∀ p ∈ pops, ∀ e, e < s0.numElecs →
      ((s0.popKernels p).getD e []).length = 2 * s0.halfL ∧
      ∀ m, m < s0.halfL → ((s0.popKernels p).getD e []).getD m 0 = 0) :
    ∀ (batches : List (List SpikeEvent)) (s : PDState) (bound : ℕ),
      s.dt = s0.dt → s.nT = s0.nT → s.halfL = s0.halfL → s.numElecs = s0.numElecs →
      s.popIDs = s0.popIDs → s.popKernels = s0.popKernels →
      goodShape s →
      (∀ p ∈ pops, ∀ i : ℕ, bound ≤ i → (s.fr p).getD i 0 = 0) →
      (∀ e i, e < s.numElecs → i < s.nT →
        (s.lfp.getD e []).getD i 0 = lfpFormula s pops e i) →
      BatchesOK s0 pops bound batches →
      (goodShape (runBatches s batches) ∧
       (runBatches s batches).numElecs = s0.numElecs ∧
       (runBatches s batches).nT = s0.nT ∧
       (∀ e i, e < s0.numElecs → i < s0.nT →
         ((runBatches s batches).lfp.getD e []).getD i 0 =
           lfpFormula (runBatches s batches) pops e i)) := by
  intro batches
  induction batches with
  | nil =>
    intro s bound h1 h2 h3 h4 h5 h6 hgood hzero hinv _
    refine ⟨hgood, h4, h2, fun e i he hi => ?_⟩
    exact hinv e i (h4 ▸ he) (h2 ▸ hi)
  | cons buffer rest ih =>
    intro s bound h1 h2 h3 h4 h5 h6 hgood hzero hinv hB
    obtain ⟨hne, htimes0, hmap0, hbound, hBrest⟩ := hB
    have htv : tvecLast s = tvecLast s0 := by
      simp only [tvecLast, tvecLastP, h1, h2]
    have hni : ∀ t, nearestIdx s t = nearestIdx s0 t := by
      intro t
      simp only [nearestIdx, nearestIdxP, h1, h2]
    have hlk : ∀ pid, lookupPopID s.popIDs pid = lookupPopID s0.popIDs pid := by
      intro pid
      rw [h5]
    have hupd := update_spec pops hpops s buffer hne (h1 ▸ hdt) (h2 ▸ hnT) (h3 ▸ hhalf)
      (fun ev hev => by rw [hlk]; exact hmap0 ev hev)
      (fun pid pid' q hq hq' => hinj pid pid' q ((hlk pid) ▸ hq) ((hlk pid') ▸ hq'))
      (fun ev hev => by rw [htv]; exact htimes0 ev hev)
      (fun p hp i hi => by
        refine hzero p hp i ?_
        rw [hni] at hi
        omega)
      (fun p hp e he => by rw [h6, h3]; exact hker p hp e (h4 ▸ he))
      hgood hinv
    obtain ⟨hflag, hgood', hframe', hinv'⟩ := hupd
    obtain ⟨g1, g2, g3, g4, g5, g6⟩ := update_statics s buffer
    have hminmax : nearestIdx s0 (listMin (buffer.map SpikeEvent.t)) ≤
        nearestIdx s0 (listMax (buffer.map SpikeEvent.t)) := by
      have htne : buffer.map SpikeEvent.t ≠ [] := by
        intro hc
        have := congrArg List.length hc
        simp only [List.length_map, List.length_nil] at this
        exact hne (List.length_eq_zero.mp this)
      obtain ⟨ev0, hev0, hev0t⟩ : ∃ ev ∈ buffer,
          ev.t = listMin (buffer.map SpikeEvent.t) := by
        rcases List.mem_map.mp (listMin_mem _ htne) with ⟨ev, hev, het⟩
        exact ⟨ev, hev, het⟩
      obtain ⟨ev1, hev1, hev1t⟩ : ∃ ev ∈ buffer,
          ev.t = listMax (buffer.map SpikeEvent.t) := by
        rcases List.mem_map.mp (listMax_mem _ htne) with ⟨ev, hev, het⟩
        exact ⟨ev, hev, het⟩
      have hminmaxt : listMin (buffer.map SpikeEvent.t) ≤
          listMax (buffer.map SpikeEvent.t) :=
        hev0t ▸ le_listMax _ _ (List.mem_map.mpr ⟨ev0, hev0, rfl⟩)
      have ha0 := htimes0 ev0 hev0
      have ha1 := htimes0 ev1 hev1
      exact nearestIdxP_mono s0.dt s0.nT hdt hnT (hev0t ▸ ha0.1) (hev1t ▸ ha1.2) hminmaxt
    refine ih (update s buffer).1 (nearestIdx s0 (listMax (buffer.map SpikeEvent.t)) + 1)
      (g1.trans h1) (g2.trans h2) (g3.trans h3) (g4.trans h4) (g5.trans h5) (g6.trans h6)
      hgood' ?_ (fun e i he hi => hinv' e i (g4 ▸ he) (g2 ▸ hi)) hBrest
    intro p hp i hi
    have hfr := hframe' p i (Or.inr (by rw [hni]; omega))
    rw [hfr]
    refine hzero p hp i ?_
    omega

/-- C1 (amended): for every firing-rate history split into a sequence of
disjoint, time-ordered batches of known populations with in-horizon spike
times — whose nearest-index windows are also pairwise disjoint (each
batch's `t1_idx` is at most the next batch's `t0_idx`) — and with every
population kernel vanishing on its first `kernel_length/2` samples,
calling `update` once per batch produces an LFP array exactly equal to the
one computed after the fact by `sanity_test_convolution`: for each
population, convolving its complete firing-rate array with its kernel in
full mode, discarding the first `kernel_length/2` samples, truncating to
the time-grid length, and summing over populations and channels.  (Without
the kernel condition the incremental updater drops the backward
contributions reaching in front of each batch window; see the
counterexample.) -/
theorem update_refines_sanity_convolution (s0 : PDState) (pops : List String)
    (batches : List (List SpikeEvent))
    (hdt : 0 < s0.dt) (hnT : 1 ≤ s0.nT) (hhalf : 1 ≤ s0.halfL)
    (hpops : pops.Nodup)
    (hinj : ∀ pid pid' q, lookupPopID s0.popIDs pid = some q →
      lookupPopID s0.popIDs pid' = some q → pid = pid')
    (hker : ∀ p ∈ pops, ∀ e, e < s0.numElecs →
      ((s0.popKernels p).getD e []).length = 2 * s0.halfL ∧
      ∀ m, m < s0.halfL → ((s0.popKernels p).getD e []).getD m 0 = 0)
    (hfr0 : ∀ p, s0.fr p = List.replicate s0.nT 0)
    (hlfp0 : s0.lfp = List.replicate s0.numElecs (List.replicate s0.nT 0))
    (hB : BatchesOK s0 pops 0 batches) :
    (runBatches s0 batches).lfp =
      sanityTestConvolution (runBatches s0 batches) pops := by
  have hgood0 : goodShape s0 := by
    refine ⟨fun p => by rw [hfr0, List.length_replicate],
      by rw [hlfp0, List.length_replicate], fun e he => ?_⟩
    rw [hlfp0, getD_replicate _ _ _ _ he, List.length_replicate]
  have hinv0 : ∀ e i, e < s0.numElecs → i < s0.nT →
      (s0.lfp.getD e []).getD i 0 = lfpFormula s0 pops e i := by
    intro e i he hi
    rw [hlfp0, getD_replicate _ _ _ _ he, getD_replicate_zero]
    symm
    rw [lfpFormula]
    have hzmap : pops.map (fun p =>
        ∑ m ∈ Finset.range (((s0.popKernels p).getD e []).length),
          ((s0.popKernels p).getD e []).getD m 0 *
            getZ (s0.fr p) ((i : ℤ) + (s0.halfL : ℤ) - (m : ℤ))) =
        pops.map fun _ => (0 : ℚ) :=
      List.map_congr_left fun p _ => Finset.sum_eq_zero fun m _ => by
        rw [hfr0, getZ_replicate_zero, mul_zero]
    rw [hzmap]
    simp
  obtain ⟨hgoodF, hnum, hnTF, hinvF⟩ := runBatches_spec pops hpops s0 hdt hnT hhalf
    hinj hker batches s0 0 rfl rfl rfl rfl rfl rfl hgood0
    (fun p _ i _ => by rw [hfr0]; exact getD_replicate_zero _ _) hinv0 hB
  obtain ⟨hfrlenF, hlfplenF, hrowlenF⟩ := hgoodF
  apply ext_by_getD []
  · rw [hlfplenF, sanityTest_length]
  · intro e he
    rw [hlfplenF] at he
    rw [sanityTest_getD _ _ _ he]
    apply ext_by_getD 0
    · rw [hrowlenF e he, sanityRow_length]
    · intro i hi
      rw [hrowlenF e he] at hi
      rw [sanityRow_getD _ _ _ _ hi]
      exact hinvF e i (hnum ▸ he) (hnTF ▸ hi)

/-- State for the C1 witness: 3-point grid, one electrode, one population
with the causal kernel `[0, 1]` (`kernel_length = 2`), zero initial
firing rates and LFP. -/
def c1GoodState : PDState where
  dt := 1
  nT := 3
  halfL := 1
  numElecs := 1
  popIDs := [(1, "A")]
  popKernels := fun p => if p = "A" then [[0, 1]] else []
  fr := fun _ => List.replicate 3 0
  lfp := [List.replicate 3 0]

theorem update_refines_sanity_convolution_witness :
    (runBatches c1GoodState [[⟨1, 0, 1⟩]]).lfp =
      sanityTestConvolution (runBatches c1GoodState [[⟨1, 0, 1⟩]]) ["A"] := by
  apply update_refines_sanity_convolution c1GoodState ["A"] [[⟨1, 0, 1⟩]]
    (by norm_num [c1GoodState]) (by norm_num [c1GoodState]) (by norm_num [c1GoodState])
    (by simp)
  · intro pid pid' q h h'
    by_cases hp : pid = (1 : ℚ)
    · by_cases hp' : pid' = (1 : ℚ)
      · rw [hp, hp']
      · simp [lookupPopID, hp', c1GoodState] at h'
    · simp [lookupPopID, hp, c1GoodState] at h
  · intro p hp e he
    have hp' : p = "A" := by simpa using hp
    have he' : e < 1 := he
    have he0 : e = 0 := by omega
    subst hp'
    subst he0
    refine ⟨by norm_num [c1GoodState], ?_⟩
    intro m hm
    have hm' : m < 1 := hm
    have hm0 : m = 0 := by omega
    subst hm0
    norm_num [c1GoodState]
  · intro p
    rfl
  · rfl
  · simp only [BatchesOK]
    refine ⟨by simp, ?_, ?_, Nat.zero_le _, trivial⟩
    · intro ev hev
      rw [List.mem_singleton] at hev
      subst hev
      constructor
      · norm_num
      · show (1 : ℚ) ≤ tvecLast c1GoodState
        norm_num [tvecLast, tvecLastP, c1GoodState]
    · intro ev hev
      rw [List.mem_singleton] at hev
      subst hev
      refine ⟨"A", by simp, ?_⟩
      simp [lookupPopID, c1GoodState]

/-- State for the C1 counterexample: 4-point grid, one electrode, one
population with the acausal kernel `[1, 0]` (nonzero before the
`kernel_length/2` midpoint), zero initial firing rates and LFP. -/
def c1BadState : PDState where
  dt := 1
  nT := 4
  halfL := 1
  numElecs := 1
  popIDs := [(1, "A")]
  popKernels := fun p => if p = "A" then [[1, 0]] else []
  fr := fun _ => List.replicate 4 0
  lfp := [List.replicate 4 0]

/-- C1 counterexample: a single batch with one in-horizon spike of a known
population (trivially disjoint and time-ordered), processed by `update`
from the zero state, yields an LFP that differs from the post-hoc
`sanity_test_convolution` result, because the kernel `[1, 0]` has support
before its midpoint and the incremental update discards the corresponding
backward contribution while the full convolution keeps it. -/
theorem update_sanity_mismatch_acausal_kernel :
    (∀ ev ∈ [SpikeEvent.mk 1 0 1], 0 ≤ ev.t ∧ ev.t ≤ tvecLast c1BadState ∧
      ∃ p ∈ ["A"], lookupPopID c1BadState.popIDs ev.popId = some p) ∧
    (runBatches c1BadState [[⟨1, 0, 1⟩]]).lfp ≠
      sanityTestConvolution (runBatches c1BadState [[⟨1, 0, 1⟩]]) ["A"] := by
  have htv : tvecLast c1BadState = 3 := by norm_num [tvecLast, tvecLastP, c1BadState]
  have hn1 : nearestIdx c1BadState 1 = 1 := by
    show nearestIdxP 1 4 1 = 1
    rw [nearestIdxP, show List.range 4 = [0, 1, 2, 3] from rfl]
    norm_num [npArgmin, listMin]
  have hnewFr : addSpikes c1BadState (c1BadState.fr "A") [1] = [0, 1, 0, 0] := by
    simp only [addSpikes, hn1]
    rw [if_neg (by rw [htv]; norm_num)]
    show (List.replicate 4 (0 : ℚ)).set 1 ((List.replicate 4 (0 : ℚ)).getD 1 0 + 1) =
      [0, 1, 0, 0]
    rw [show (List.replicate 4 (0 : ℚ)).getD 1 0 = 0 from rfl]
    norm_num
    rfl
  have hupd1 : update c1BadState [⟨1, 0, 1⟩] = processPops [⟨1, 0, 1⟩] 1 2 c1BadState [1] := by
    rw [update, if_neg (by simp)]
    show processPops [⟨1, 0, 1⟩] (nearestIdx c1BadState (listMin [1]))
      (nearestIdx c1BadState (listMax [1]) + 1) c1BadState (bufferPopIds [⟨1, 0, 1⟩]) = _
    rw [show listMin [(1 : ℚ)] = 1 from rfl, show listMax [(1 : ℚ)] = 1 from rfl, hn1,
      show bufferPopIds [(⟨1, 0, 1⟩ : SpikeEvent)] = [1] from rfl]
  have hproc : processPops [⟨1, 0, 1⟩] 1 2 c1BadState [1] =
      (popUpdState [⟨1, 0, 1⟩] 1 2 c1BadState 1 "A", false) := rfl
  have hrun : runBatches c1BadState [[⟨1, 0, 1⟩]] =
      popUpdState [⟨1, 0, 1⟩] 1 2 c1BadState 1 "A" := by
    show (update c1BadState [⟨1, 0, 1⟩]).1 = _
    rw [hupd1, hproc]
  have hconv1 : npConvolve [(1 : ℚ), 0] [1] = [1, 0] := by
    rw [npConvolve]
    norm_num [List.range_succ]
  have hseg1 : (npConvolve [(1 : ℚ), 0] [1]).drop 1 = [0] := by
    rw [hconv1]
    rfl
  have haddAt1 : addAt [(0 : ℚ), 0, 0, 0] 1 [(0 : ℚ)] = [0, 0, 0, 0] := by
    rw [addAt, show List.range ([(0 : ℚ), 0, 0, 0]).length = [0, 1, 2, 3] from rfl]
    norm_num
  have hrowC : rowConvAdd c1BadState "A" [1] 1 2 0 [(0 : ℚ), 0, 0, 0] = [0, 0, 0, 0] := by
    show addAt [(0 : ℚ), 0, 0, 0] 1 ((npConvolve [(1 : ℚ), 0] [1]).drop 1) = [0, 0, 0, 0]
    rw [hseg1]
    exact haddAt1
  have hlfpF : (popUpdState [⟨1, 0, 1⟩] 1 2 c1BadState 1 "A").lfp = [[0, 0, 0, 0]] := by
    rw [popUpdState_lfp,
      show List.range c1BadState.numElecs = [0] from rfl]
    simp only [List.foldl_cons, List.foldl_nil]
    rw [show (List.filter (fun e => decide (e.popId = (1 : ℚ)))
        [(⟨1, 0, 1⟩ : SpikeEvent)]).map SpikeEvent.t = [1] from rfl, hnewFr,
      show ((([0, 1, 0, 0] : List ℚ).drop 1).take (2 - 1)) = [1] from rfl,
      show (if 2 + c1BadState.halfL - 1 < c1BadState.nT then 2 + c1BadState.halfL - 1
        else c1BadState.nT) = 2 from rfl,
      show c1BadState.lfp.getD 0 [] = ([0, 0, 0, 0] : List ℚ) from rfl, hrowC]
    rfl
  have hfrF : (popUpdState [⟨1, 0, 1⟩] 1 2 c1BadState 1 "A").fr "A" = [0, 1, 0, 0] := by
    show addSpikes c1BadState (c1BadState.fr "A")
      ((List.filter (fun e => decide (e.popId = (1 : ℚ)))
        [(⟨1, 0, 1⟩ : SpikeEvent)]).map SpikeEvent.t) = _
    rw [show (List.filter (fun e => decide (e.popId = (1 : ℚ)))
      [(⟨1, 0, 1⟩ : SpikeEvent)]).map SpikeEvent.t = [1] from rfl]
    exact hnewFr
  have hconv2 : npConvolve [(1 : ℚ), 0] [0, 1, 0, 0] = [0, 1, 0, 0, 0] := by
    rw [npConvolve]
    norm_num [List.range_succ]
  have haddAt2 : addAt (List.replicate 4 (0 : ℚ)) 0 [(1 : ℚ), 0, 0, 0] = [1, 0, 0, 0] := by
    rw [addAt, show List.range (List.replicate 4 (0 : ℚ)).length = [0, 1, 2, 3] from rfl]
    norm_num
  have hsrow : sanityRow (popUpdState [⟨1, 0, 1⟩] 1 2 c1BadState 1 "A") ["A"] 0 =
      [1, 0, 0, 0] := by
    rw [sanityRow]
    simp only [List.foldl_cons, List.foldl_nil]
    rw [show ((popUpdState [⟨1, 0, 1⟩] 1 2 c1BadState 1 "A").popKernels "A").getD 0 [] =
        [(1 : ℚ), 0] from rfl, hfrF, hconv2,
      show (popUpdState [⟨1, 0, 1⟩] 1 2 c1BadState 1 "A").halfL = 1 from rfl,
      show ([(0 : ℚ), 1, 0, 0, 0].drop 1) = [1, 0, 0, 0] from rfl,
      show (popUpdState [⟨1, 0, 1⟩] 1 2 c1BadState 1 "A").nT = 4 from rfl,
      show ([(1 : ℚ), 0, 0, 0].take (List.replicate 4 (0 : ℚ)).length) = [1, 0, 0, 0] from rfl]
    exact haddAt2
  have hsan : sanityTestConvolution (popUpdState [⟨1, 0, 1⟩] 1 2 c1BadState 1 "A") ["A"] =
      [[1, 0, 0, 0]] := by
    rw [sanityTestConvolution,
      show List.range (popUpdState [⟨1, 0, 1⟩] 1 2 c1BadState 1 "A").numElecs = [0] from rfl,
      List.map_cons, List.map_nil, hsrow]
  refine ⟨?_, ?_⟩
  · intro ev hev
    rw [List.mem_singleton] at hev
    subst hev
    refine ⟨by norm_num, ?_, ⟨"A", by simp, by simp [lookupPopID, c1BadState]⟩⟩
    show (1 : ℚ) ≤ tvecLast c1BadState
    rw [htv]
    norm_num
  · rw [hrun, hlfpF, hsan]
    simp

/-- C7: calling `update` with an empty batch returns the state unchanged
(and no error); consequently, delivering any batch and then an empty batch
yields exactly the same state as delivering that batch alone. -/
theorem update_empty_batch_noop (s : PDState) (buffer : List SpikeEvent) :
    update s [] = (s, false) ∧
    (update (update s buffer).1 []).1 = (update s buffer).1 :=
  ⟨rfl, rfl⟩

theorem endsWith_eq_presyn :
    ∀ Y ∈ postsynPops, ∀ X ∈ presynPops, ∀ p ∈ presynPops,
      (strEndsWith (Y ++ ":" ++ X) p) = (X == p) := by decide

theorem presynLabel_concat :
    ∀ Y ∈ postsynPops, ∀ X ∈ presynPops, presynLabel (Y ++ ":" ++ X) = X := by decide

/-- C10: over the fixed population name set, the suffix test
`pathway_name.endswith(pop_name)` used by `_find_kernels` holds exactly
when the pathway's presynaptic label (the part after the colon) is that
population: no population name is a proper suffix of a pathway ending in
a different population. -/
theorem endswith_iff_presyn_label :
    ∀ Y ∈ postsynPops, ∀ X ∈ presynPops, ∀ p ∈ presynPops,
      ((strEndsWith (Y ++ ":" ++ X) p) = true ↔ X = p) := by decide

theorem endswith_iff_presyn_label_witness :
    (strEndsWith ("L4E" ++ ":" ++ "L23E") "L23E" = true ↔ "L23E" = "L23E") ∧
    (strEndsWith ("L4E" ++ ":" ++ "L23E") "L4E" = true ↔ "L23E" = "L4E") :=
  ⟨endswith_iff_presyn_label "L4E" (by decide) "L23E" (by decide) "L23E" (by decide),
   endswith_iff_presyn_label "L4E" (by decide) "L23E" (by decide) "L4E" (by decide)⟩

theorem foldl_if_eq_filter (cond : String → Bool) :
    ∀ (H : List (String × List (List ℚ))) (init : List (List ℚ)),
      H.foldl (fun acc p => if cond p.1 then matAdd acc p.2 else acc) init =
        ((H.filter fun p => cond p.1).map Prod.snd).foldl matAdd init := by
  intro H
  induction H with
  | nil => intro init; rfl
  | cons hd tl ih =>
    intro init
    rw [List.foldl_cons, List.filter_cons]
    by_cases hc : cond hd.1
    · rw [if_pos hc, if_pos hc, List.map_cons, List.foldl_cons, ih]
    · rw [if_neg hc, if_neg hc, ih]

/-- C6: for every presynaptic population, the summed kernel produced by
`_find_kernels` equals the zero array of shape `(channels, L)` plus the
elementwise sum of exactly those loaded pathway kernels whose presynaptic
label (the part of the pathway name after the colon) is that population;
pathways absent from the loaded mapping contribute exactly zero. -/
theorem find_kernels_sums_presyn_pathways (nE L : ℕ)
    (H : List (String × List (List ℚ)))
    (hkeys : ∀ k ∈ H.map Prod.fst, ∃ Y ∈ postsynPops, ∃ X ∈ presynPops,
      k = Y ++ ":" ++ X)
    (pop : String) (hpop : pop ∈ presynPops) :
    findKernels nE L H pop = specSummedKernel nE L H pop := by
  rw [findKernels, specSummedKernel, foldl_if_eq_filter (fun k => strEndsWith k pop)]
  have hfe : H.filter (fun p => strEndsWith p.1 pop) =
      H.filter (fun p => presynLabel p.1 == pop) := by
    apply List.filter_congr
    intro x hx
    obtain ⟨Y, hY, X, hX, hk⟩ := hkeys x.1 (List.mem_map.mpr ⟨x, hx, rfl⟩)
    rw [hk, endsWith_eq_presyn Y hY X hX pop hpop, presynLabel_concat Y hY X hX]
  rw [hfe]

/-- Loaded-kernel table for the C6 witness: two pathways, one with
presynaptic label `L23E` and one with presynaptic label `TC`. -/
def c6H : List (String × List (List ℚ)) :=
  [("L4E" ++ ":" ++ "L23E", [[1]]), ("L5E" ++ ":" ++ "TC", [[2]])]

theorem find_kernels_sums_presyn_pathways_witness :
    findKernels 1 1 c6H "L23E" = specSummedKernel 1 1 c6H "L23E" :=
  find_kernels_sums_presyn_pathways 1 1 c6H (by decide) "L23E" (by decide)

theorem pyRound_eq_ceil (q : ℚ) (hhalf : q - ⌊q⌋ ≠ 1 / 2) :
    pyRound q = ⌈q - 1 / 2⌉ := by
  have hf0 : (0 : ℚ) ≤ q - ⌊q⌋ := by
    have := Int.floor_le q
    linarith
  have hf1 : q - ⌊q⌋ < 1 := by
    have := Int.lt_floor_add_one q
    linarith
  rw [pyRound]
  by_cases hlt : q - ⌊q⌋ < 1 / 2
  · rw [if_pos hlt]
    have : (⌈q - 1 / 2⌉ : ℤ) = ⌊q⌋ := by
      rw [Int.ceil_eq_iff]
      constructor
      · linarith
      · linarith
    exact this.symm
  · rw [if_neg hlt]
    have hgt : 1 / 2 < q - ⌊q⌋ := lt_of_le_of_ne (not_lt.mp hlt) (Ne.symm hhalf)
    rw [if_pos hgt]
    have : (⌈q - 1 / 2⌉ : ℤ) = ⌊q⌋ + 1 := by
      rw [Int.ceil_eq_iff]
      constructor
      · push_cast
        linarith
      · push_cast
        linarith
    exact this.symm

/-- C8 (amended): for spike times within the grid whose quotient `t / dt`
is not exactly halfway between two integers, the linear argmin scan over
`|t - tvec|` used by `update` agrees with Python's `round(t / dt)`. At
exact half ties the two differ (see the mismatch theorem): `np.argmin`
returns the first minimizer, rounding half down, while Python rounds half
to even. -/
theorem nearest_idx_eq_round (s : PDState) (t : ℚ) (hdt : 0 < s.dt)
    (hnT : 1 ≤ s.nT) (h0 : 0 ≤ t) (h1 : t ≤ tvecLast s)
    (hhalf : t / s.dt - ⌊t / s.dt⌋ ≠ 1 / 2) :
    (nearestIdx s t : ℤ) = pyRound (t / s.dt) := by
  have h2 : nearestIdxP s.dt s.nT t = (⌈t / s.dt - 1 / 2⌉).toNat :=
    nearestIdxP_eq s.dt s.nT t hdt hnT h0 h1
  have hge : (0 : ℤ) ≤ ⌈t / s.dt - 1 / 2⌉ := by
    have h3 : (-1 : ℤ) < ⌈t / s.dt - 1 / 2⌉ := by
      apply Int.lt_ceil.mpr
      have h4 : 0 ≤ t / s.dt := div_nonneg h0 hdt.le
      push_cast
      linarith
    omega
  rw [nearestIdx, h2, pyRound_eq_ceil _ hhalf, Int.toNat_of_nonneg hge]

/-- Grid state for the C8 witness and counterexample: `dt = 1`, three grid
points, no kernels needed. -/
def c8State : PDState where
  dt := 1
  nT := 3
  halfL := 1
  numElecs := 1
  popIDs := [(1, "A")]
  popKernels := fun _ => []
  fr := fun _ => List.replicate 3 0
  lfp := [List.replicate 3 0]

theorem nearest_idx_eq_round_witness :
    (0 < c8State.dt ∧ 1 ≤ c8State.nT ∧ (0 : ℚ) ≤ 1 / 4 ∧
      (1 / 4 : ℚ) ≤ tvecLast c8State ∧
      (1 / 4 : ℚ) / c8State.dt - ⌊(1 / 4 : ℚ) / c8State.dt⌋ ≠ 1 / 2) ∧
    (nearestIdx c8State (1 / 4) : ℤ) = pyRound ((1 / 4 : ℚ) / c8State.dt) := by
  have hdt : 0 < c8State.dt := by norm_num [c8State]
  have hnT : 1 ≤ c8State.nT := by norm_num [c8State]
  have h0 : (0 : ℚ) ≤ 1 / 4 := by norm_num
  have h1 : (1 / 4 : ℚ) ≤ tvecLast c8State := by
    norm_num [tvecLast, tvecLastP, c8State]
  have hhalf : (1 / 4 : ℚ) / c8State.dt - ⌊(1 / 4 : ℚ) / c8State.dt⌋ ≠ 1 / 2 := by
    rw [show ((1 / 4 : ℚ) / c8State.dt) = 1 / 4 from by norm_num [c8State]]
    norm_num
  exact ⟨⟨hdt, hnT, h0, h1, hhalf⟩,
    nearest_idx_eq_round c8State (1 / 4) hdt hnT h0 h1 hhalf⟩

/-- C8 counterexample: at `t = 3/2` on the unit grid the linear scan
returns index 1 (`np.argmin` takes the first minimizer at a tie of
absolute differences) while Python's `round(3/2)` rounds half to even,
giving 2. -/
theorem nearest_idx_round_mismatch_at_half :
    (nearestIdx c8State (3 / 2) : ℤ) ≠ pyRound ((3 / 2 : ℚ) / c8State.dt) := by
  have h2 : nearestIdx c8State (3 / 2) = 1 := by
    have h5 := nearestIdxP_eq 1 3 (3 / 2) (by norm_num) (by norm_num) (by norm_num)
      (by norm_num [tvecLastP])
    rw [nearestIdx, show c8State.dt = 1 from rfl, show c8State.nT = 3 from rfl, h5]
    norm_num
  have h3 : pyRound ((3 / 2 : ℚ) / c8State.dt) = 2 := by
    rw [show ((3 / 2 : ℚ) / c8State.dt) = 3 / 2 from by norm_num [c8State]]
    have hfl : ⌊(3 / 2 : ℚ)⌋ = 1 := by
      rw [Int.floor_eq_iff]
      norm_num
    rw [pyRound, hfl]
    norm_num
  rw [h2, h3]
  norm_num

/-- Shared concrete state for the C2, C3 and C4 demonstrations: 3-point
unit grid, one electrode, one registered population `A` with id 1 and the
causal kernel `[0, 1]`, zero initial firing rates and LFP. -/
def demoState : PDState where
  dt := 1
  nT := 3
  halfL := 1
  numElecs := 1
  popIDs := [(1, "A")]
  popKernels := fun p => if p = "A" then [[0, 1]] else []
  fr := fun _ => List.replicate 3 0
  lfp := [List.replicate 3 0]

theorem demo_tvecLast : tvecLast demoState = 2 := by
  norm_num [tvecLast, tvecLastP, demoState]

theorem demo_nearest1 : nearestIdx demoState 1 = 1 := by
  show nearestIdxP 1 3 1 = 1
  rw [nearestIdxP, show List.range 3 = [0, 1, 2] from rfl]
  norm_num [npArgmin, listMin]

theorem demo_nearest2 : nearestIdx demoState 2 = 2 := by
  show nearestIdxP 1 3 2 = 2
  rw [nearestIdxP, show List.range 3 = [0, 1, 2] from rfl]
  norm_num [npArgmin, listMin]

theorem demo_nearest5 : nearestIdx demoState 5 = 2 := by
  show nearestIdxP 1 3 5 = 2
  rw [nearestIdxP, show List.range 3 = [0, 1, 2] from rfl]
  norm_num [npArgmin, listMin]

/-- For a time beyond the last grid point, the argmin scan returns the
last grid index `nT - 1`: the distances `t - i*dt` are strictly
decreasing in `i`. -/
theorem nearestIdxP_ge_last (dt : ℚ) (nT : ℕ) (t : ℚ) (hdt : 0 < dt) (hnT : 1 ≤ nT)
    (h : tvecLastP dt nT ≤ t) : nearestIdxP dt nT t = nT - 1 := by
  have hcast : ((nT - 1 : ℕ) : ℚ) = (nT : ℚ) - 1 := by
    rw [Nat.cast_sub hnT]
    norm_num
  have habs : ∀ i : ℕ, i < nT → |t - (i : ℚ) * dt| = t - (i : ℚ) * dt := by
    intro i hi
    apply abs_of_nonneg
    have hiq : (i : ℚ) ≤ (nT : ℚ) - 1 := by
      have h1 : (i : ℚ) + 1 ≤ (nT : ℚ) := by exact_mod_cast Nat.succ_le_of_lt hi
      linarith
    have h2 : (i : ℚ) * dt ≤ ((nT : ℚ) - 1) * dt :=
      mul_le_mul_of_nonneg_right hiq hdt.le
    rw [tvecLastP] at h
    linarith
  rw [nearestIdxP]
  apply npArgmin_eq
  · rw [List.length_map, List.length_range]
    omega
  · intro i hi
    rw [List.length_map, List.length_range] at hi
    have e1 : ((List.range nT).map fun i : ℕ => |t - (i : ℚ) * dt|).getD (nT - 1) 0 =
        |t - ((nT - 1 : ℕ) : ℚ) * dt| := by
      rw [getD_map_range, if_pos (by omega : nT - 1 < nT)]
    have e2 : ((List.range nT).map fun i : ℕ => |t - (i : ℚ) * dt|).getD i 0 =
        |t - (i : ℚ) * dt| := by
      rw [getD_map_range, if_pos hi]
    rw [e1, e2, habs i hi, habs (nT - 1) (by omega), hcast]
    have hiq : (i : ℚ) ≤ (nT : ℚ) - 1 := by
      have h1 : (i : ℚ) + 1 ≤ (nT : ℚ) := by exact_mod_cast Nat.succ_le_of_lt hi
      linarith
    have h2 : (i : ℚ) * dt ≤ ((nT : ℚ) - 1) * dt :=
      mul_le_mul_of_nonneg_right hiq hdt.le
    linarith
  · intro i hij
    have hi : i < nT := by omega
    have e1 : ((List.range nT).map fun i : ℕ => |t - (i : ℚ) * dt|).getD (nT - 1) 0 =
        |t - ((nT - 1 : ℕ) : ℚ) * dt| := by
      rw [getD_map_range, if_pos (by omega : nT - 1 < nT)]
    have e2 : ((List.range nT).map fun i : ℕ => |t - (i : ℚ) * dt|).getD i 0 =
        |t - (i : ℚ) * dt| := by
      rw [getD_map_range, if_pos hi]
    rw [e1, e2, habs i hi, habs (nT - 1) (by omega), hcast]
    have hiq : (i : ℚ) < (nT : ℚ) - 1 := by
      have h2 : i + 1 ≤ nT - 1 := hij
      have h3 : ((i + 1 : ℕ) : ℚ) ≤ ((nT - 1 : ℕ) : ℚ) := by exact_mod_cast h2
      rw [hcast] at h3
      push_cast at h3
      linarith
    have h2 : (i : ℚ) * dt < ((nT : ℚ) - 1) * dt := mul_lt_mul_of_pos_right hiq hdt
    linarith

/-- The spike loop leaves the firing-rate array untouched when every
spike time of the (per-population) list is beyond the last grid point:
the `break` fires at the first element (or the list is empty). -/
theorem addSpikes_out (s : PDState) (fr : List ℚ) (ts : List ℚ)
    (h : ∀ t ∈ ts, tvecLast s < t) : addSpikes s fr ts = fr := by
  cases ts with
  | nil => rfl
  | cons t ts' =>
    simp only [addSpikes]
    rw [if_pos (h t (List.mem_cons_self _ _))]

theorem set_getD_self {α : Type} (d : α) (L : List α) (e : ℕ) :
    L.set e (L.getD e d) = L := by
  apply ext_by_getD d
  · rw [List.length_set]
  · intro i hi
    rw [List.length_set] at hi
    rw [getD_set]
    split
    · rename_i hc
      rw [hc.1]
    · rfl

theorem addAt_zero_seg (row : List ℚ) (st : ℕ) (seg : List ℚ)
    (h : ∀ j : ℕ, seg.getD j 0 = 0) : addAt row st seg = row := by
  apply ext_by_getD 0
  · rw [length_addAt]
  · intro i hi
    rw [length_addAt] at hi
    rw [addAt_getD _ _ _ _ hi, h (i - st), ite_self, add_zero]

/-- Convolving a kernel row against an all-zero firing-rate window and
adding the trimmed result into an LFP row is a no-op. -/
theorem rowConvAdd_zero_fr (σ : PDState) (p : String) (fr_ : List ℚ)
    (hfr : ∀ i : ℕ, fr_.getD i 0 = 0) (sig0 sig1 e : ℕ) (row : List ℚ) :
    rowConvAdd σ p fr_ sig0 sig1 e row = row := by
  have hgz : ∀ z : ℤ, getZ fr_ z = 0 := by
    intro z
    unfold getZ
    split
    · exact hfr _
    · rfl
  have hseg : ∀ j : ℕ,
      ((npConvolve ((σ.popKernels p).getD e []) fr_).drop σ.halfL).getD j 0 = 0 := by
    intro j
    rw [convDrop_getD]
    apply Finset.sum_eq_zero
    intro m _
    rw [hgz, mul_zero]
  simp only [rowConvAdd]
  split
  · exact addAt_zero_seg _ _ _ hseg
  · apply addAt_zero_seg
    intro j
    rw [getD_take]
    split
    · exact hseg j
    · rfl

theorem foldl_rowConvAdd_zero (σ : PDState) (p : String) (fr_ : List ℚ)
    (hfr : ∀ i : ℕ, fr_.getD i 0 = 0) (sig0 sig1 : ℕ) :
    ∀ (es : List ℕ) (L : List (List ℚ)),
      es.foldl (fun cur e => cur.set e (rowConvAdd σ p fr_ sig0 sig1 e (cur.getD e []))) L
        = L := by
  intro es
  induction es with
  | nil => intro L; rfl
  | cons e es ih =>
    intro L
    rw [List.foldl_cons, rowConvAdd_zero_fr σ p fr_ hfr, set_getD_self, ih]

theorem PDState_ext {s1 s2 : PDState} (h1 : s1.dt = s2.dt) (h2 : s1.nT = s2.nT)
    (h3 : s1.halfL = s2.halfL) (h4 : s1.numElecs = s2.numElecs)
    (h5 : s1.popIDs = s2.popIDs) (h6 : s1.popKernels = s2.popKernels)
    (h7 : s1.fr = s2.fr) (h8 : s1.lfp = s2.lfp) : s1 = s2 := by
  cases s1
  cases s2
  dsimp only at h1 h2 h3 h4 h5 h6 h7 h8
  subst h1 h2 h3 h4 h5 h6 h7 h8
  rfl

/-- One population-loop iteration is a complete no-op when every spike of
the batch is beyond the last grid point and the population's firing rate
is zero from the window start on. -/
theorem popUpdState_out_frame (buffer : List SpikeEvent) (a b : ℕ) (s : PDState)
    (pid : ℚ) (p : String)
    (hout : ∀ ev ∈ buffer, tvecLast s < ev.t)
    (hzero : ∀ i : ℕ, a ≤ i → (s.fr p).getD i 0 = 0) :
    popUpdState buffer a b s pid p = s := by
  have hts : ∀ t ∈ (buffer.filter fun e => decide (e.popId = pid)).map SpikeEvent.t,
      tvecLast s < t := by
    intro t ht
    obtain ⟨ev, hev, het⟩ := mem_spiketimes ht
    rw [← het]
    exact hout ev hev
  have hadd : addSpikes s (s.fr p)
      ((buffer.filter fun e => decide (e.popId = pid)).map SpikeEvent.t) = s.fr p :=
    addSpikes_out s _ _ hts
  apply PDState_ext
  · rfl
  · rfl
  · rfl
  · rfl
  · rfl
  · rfl
  · rw [popUpdState_fr, hadd]
    funext q
    split
    · rename_i hq
      rw [hq]
    · rfl
  · rw [popUpdState_lfp, hadd]
    have hfrz : ∀ i : ℕ, (((s.fr p).drop a).take (b - a)).getD i 0 = 0 := by
      intro i
      rw [getD_slice]
      split
      · exact hzero _ (Nat.le_add_right _ _)
      · rfl
    exact foldl_rowConvAdd_zero s p _ hfrz a _ _ s.lfp

theorem processPops_out_frame (buffer : List SpikeEvent) (a b : ℕ) :
    ∀ (pids : List ℚ) (s : PDState),
      (∀ ev ∈ buffer, tvecLast s < ev.t) →
      (∀ pid ∈ pids, ∃ p, lookupPopID s.popIDs pid = some p) →
      (∀ pid ∈ pids, ∀ p, lookupPopID s.popIDs pid = some p →
        ∀ i : ℕ, a ≤ i → (s.fr p).getD i 0 = 0) →
      processPops buffer a b s pids = (s, false) := by
  intro pids
  induction pids with
  | nil =>
    intro s _ _ _
    rfl
  | cons pid rest ih =>
    intro s hout hknown hzero
    obtain ⟨p, hlook⟩ := hknown pid (List.mem_cons_self _ _)
    have hpopupd : popUpdState buffer a b s pid p = s :=
      popUpdState_out_frame buffer a b s pid p hout
        (hzero pid (List.mem_cons_self _ _) p hlook)
    have hpp : processPops buffer a b s (pid :: rest) =
        processPops buffer a b (popUpdState buffer a b s pid p) rest := by
      simp only [processPops, stepPop, hlook]
    rw [hpp, hpopupd]
    exact ih s hout (fun pid' h' => hknown pid' (List.mem_cons_of_mem _ h'))
      (fun pid' h' => hzero pid' (List.mem_cons_of_mem _ h'))

/-- C2 (code bug): in the batch `[(1, 0, 5), (1, 0, 1)]` the second spike,
at `t = 1`, is in-horizon (`1 ≤ tvec[-1] = 2`) for the registered
population `A` and bins to grid index 1, yet after `update` the
firing-rate count at index 1 is still 0 and no error is raised: the spike
loop `break`s at the out-of-horizon spike `t = 5` and discards every
later spike of the batch, so an in-horizon spike is not counted when it
follows an out-of-horizon one in the batch's ordering, contradicting both
the claim and the intended per-spike drop. -/
theorem update_break_drops_inhorizon_spike :
    (0 : ℚ) ≤ 1 ∧ (1 : ℚ) ≤ tvecLast demoState ∧
    nearestIdx demoState 1 = 1 ∧
    lookupPopID demoState.popIDs 1 = some "A" ∧
    (update demoState [⟨1, 0, 5⟩, ⟨1, 0, 1⟩]).2 = false ∧
    ((update demoState [⟨1, 0, 5⟩, ⟨1, 0, 1⟩]).1.fr "A").getD 1 0 = 0 := by
  have hmin : listMin [(5 : ℚ), 1] = 1 := by norm_num [listMin]
  have hmax : listMax [(5 : ℚ), 1] = 5 := by norm_num [listMax]
  have hupd : update demoState [⟨1, 0, 5⟩, ⟨1, 0, 1⟩] =
      processPops [⟨1, 0, 5⟩, ⟨1, 0, 1⟩] 1 3 demoState [1] := by
    rw [update, if_neg (by simp)]
    show processPops _ (nearestIdx demoState (listMin [5, 1]))
      (nearestIdx demoState (listMax [5, 1]) + 1) demoState
      (bufferPopIds [⟨1, 0, 5⟩, ⟨1, 0, 1⟩]) = _
    rw [hmin, hmax, demo_nearest1, demo_nearest5,
      show bufferPopIds [(⟨1, 0, 5⟩ : SpikeEvent), ⟨1, 0, 1⟩] = [1] from rfl]
  have hproc : processPops [⟨1, 0, 5⟩, ⟨1, 0, 1⟩] 1 3 demoState [1] =
      (popUpdState [⟨1, 0, 5⟩, ⟨1, 0, 1⟩] 1 3 demoState 1 "A", false) := rfl
  have hadd : addSpikes demoState (demoState.fr "A") [5, 1] = List.replicate 3 0 := by
    simp only [addSpikes]
    rw [if_pos (by rw [demo_tvecLast]; norm_num)]
    rfl
  have hfrA : (popUpdState [⟨1, 0, 5⟩, ⟨1, 0, 1⟩] 1 3 demoState 1 "A").fr "A" =
      List.replicate 3 0 := by
    show addSpikes demoState (demoState.fr "A")
      ((List.filter (fun e => decide (e.popId = (1 : ℚ)))
        [(⟨1, 0, 5⟩ : SpikeEvent), ⟨1, 0, 1⟩]).map SpikeEvent.t) = _
    rw [show (List.filter (fun e => decide (e.popId = (1 : ℚ)))
      [(⟨1, 0, 5⟩ : SpikeEvent), ⟨1, 0, 1⟩]).map SpikeEvent.t = [5, 1] from rfl]
    exact hadd
  refine ⟨by norm_num, by rw [demo_tvecLast]; norm_num, demo_nearest1, rfl, ?_, ?_⟩
  · rw [hupd, hproc]
  · rw [hupd, hproc]
    show ((popUpdState [⟨1, 0, 5⟩, ⟨1, 0, 1⟩] 1 3 demoState 1 "A").fr "A").getD 1 0 = 0
    rw [hfrA]
    exact getD_replicate_zero 3 1

/-- C3 (amended): an `update` call whose batch consists only of spikes
timestamped beyond the last grid point leaves the whole state unchanged
and raises no error PROVIDED every referenced population id is
registered and the firing rates of the batch's populations vanish from
grid index `nT - 1` on.  (The nearest-index window of such a batch is
`[nT - 1, nT)`, and `update` unconditionally re-adds that window's
convolution to the LFP; the companion counterexample shows that nonzero
standing activity there is double-counted, so the spec's unconditional
no-state-change claim fails.) -/
theorem update_out_of_horizon_noop (s : PDState) (buffer : List SpikeEvent)
    (hdt : 0 < s.dt) (hnT : 1 ≤ s.nT)
    (hout : ∀ ev ∈ buffer, tvecLast s < ev.t)
    (hknown : ∀ pid ∈ bufferPopIds buffer, ∃ p, lookupPopID s.popIDs pid = some p)
    (hzero : ∀ pid ∈ bufferPopIds buffer, ∀ p, lookupPopID s.popIDs pid = some p →
      ∀ i : ℕ, s.nT - 1 ≤ i → (s.fr p).getD i 0 = 0) :
    update s buffer = (s, false) := by
  by_cases hlen : buffer.length = 0
  · rw [update, if_pos hlen]
  · have hne : buffer ≠ [] := by
      intro hc
      rw [hc] at hlen
      exact hlen rfl
    have hmapne : buffer.map SpikeEvent.t ≠ [] := by
      cases buffer with
      | nil => exact absurd rfl hne
      | cons e es => simp
    obtain ⟨ev0, hev0, ht0⟩ :=
      List.mem_map.mp (listMin_mem (buffer.map SpikeEvent.t) hmapne)
    obtain ⟨ev1, hev1, ht1⟩ :=
      List.mem_map.mp (listMax_mem (buffer.map SpikeEvent.t) hmapne)
    have h0 : tvecLast s < listMin (buffer.map SpikeEvent.t) := by
      rw [← ht0]
      exact hout ev0 hev0
    have h1 : tvecLast s < listMax (buffer.map SpikeEvent.t) := by
      rw [← ht1]
      exact hout ev1 hev1
    have hn0 : nearestIdx s (listMin (buffer.map SpikeEvent.t)) = s.nT - 1 :=
      nearestIdxP_ge_last s.dt s.nT _ hdt hnT (le_of_lt h0)
    have hn1 : nearestIdx s (listMax (buffer.map SpikeEvent.t)) = s.nT - 1 :=
      nearestIdxP_ge_last s.dt s.nT _ hdt hnT (le_of_lt h1)
    rw [update, if_neg hlen]
    show processPops buffer (nearestIdx s (listMin (buffer.map SpikeEvent.t)))
      (nearestIdx s (listMax (buffer.map SpikeEvent.t)) + 1) s (bufferPopIds buffer) =
      (s, false)
    rw [hn0, hn1]
    exact processPops_out_frame buffer (s.nT - 1) (s.nT - 1 + 1) (bufferPopIds buffer) s
      hout hknown hzero

theorem update_out_of_horizon_noop_witness :
    (∀ ev ∈ [SpikeEvent.mk 1 0 5], tvecLast demoState < ev.t) ∧
    update demoState [⟨1, 0, 5⟩] = (demoState, false) := by
  have hout : ∀ ev ∈ [SpikeEvent.mk 1 0 5], tvecLast demoState < ev.t := by
    intro ev hev
    rw [List.mem_singleton] at hev
    subst hev
    rw [demo_tvecLast]
    norm_num
  refine ⟨hout, update_out_of_horizon_noop demoState [⟨1, 0, 5⟩]
    (by norm_num [demoState]) (by norm_num [demoState]) hout ?_ ?_⟩
  · intro pid hpid
    rw [show bufferPopIds [(⟨1, 0, 5⟩ : SpikeEvent)] = [1] from rfl,
      List.mem_singleton] at hpid
    subst hpid
    exact ⟨"A", rfl⟩
  · intro pid hpid p hlook i hi
    exact getD_replicate_zero 3 i

/-- C3 counterexample: from the zero demo state, a first batch with the
in-horizon spike `t = 2` builds up standing state (`fr A = [0,0,1]`,
`lfp = [[0,0,1]]`); a second batch containing only the out-of-horizon
spike `t = 5 > tvec[-1] = 2` then CHANGES the LFP array to `[[0,0,2]]`:
the spike itself is dropped, but the convolution over the recomputed
window `[t0_idx, t1_idx)` is added to the LFP again, double-counting the
standing firing-rate activity there. -/
theorem update_out_of_horizon_mutates_lfp :
    tvecLast (update demoState [⟨1, 0, 2⟩]).1 < 5 ∧
    (update (update demoState [⟨1, 0, 2⟩]).1 [⟨1, 0, 5⟩]).1.lfp ≠
      (update demoState [⟨1, 0, 2⟩]).1.lfp := by
  have hupd2a : update demoState [⟨1, 0, 2⟩] =
      processPops [⟨1, 0, 2⟩] 2 3 demoState [1] := by
    rw [update, if_neg (by simp)]
    show processPops _ (nearestIdx demoState (listMin [2]))
      (nearestIdx demoState (listMax [2]) + 1) demoState
      (bufferPopIds [⟨1, 0, 2⟩]) = _
    rw [show listMin [(2 : ℚ)] = 2 from rfl, show listMax [(2 : ℚ)] = 2 from rfl,
      demo_nearest2, show bufferPopIds [(⟨1, 0, 2⟩ : SpikeEvent)] = [1] from rfl]
  have hupd2 : update demoState [⟨1, 0, 2⟩] =
      (popUpdState [⟨1, 0, 2⟩] 2 3 demoState 1 "A", false) := by
    rw [hupd2a]
    rfl
  have hfr2 : addSpikes demoState (demoState.fr "A") [2] = [0, 0, 1] := by
    simp only [addSpikes, demo_nearest2]
    rw [if_neg (by rw [demo_tvecLast]; norm_num)]
    show (List.replicate 3 (0 : ℚ)).set 2 ((List.replicate 3 (0 : ℚ)).getD 2 0 + 1) =
      [0, 0, 1]
    rw [show (List.replicate 3 (0 : ℚ)).getD 2 0 = 0 from rfl]
    norm_num
    rfl
  have hconv3 : npConvolve [(0 : ℚ), 1] [1] = [0, 1] := by
    rw [npConvolve]
    norm_num [List.range_succ]
  have hseg3 : (npConvolve [(0 : ℚ), 1] [1]).drop 1 = [1] := by
    rw [hconv3]
    rfl
  have haddAt3 : addAt [(0 : ℚ), 0, 0] 2 [(1 : ℚ)] = [0, 0, 1] := by
    rw [addAt, show List.range ([(0 : ℚ), 0, 0]).length = [0, 1, 2] from rfl]
    norm_num
  have hrow3 : rowConvAdd demoState "A" [1] 2 3 0 [(0 : ℚ), 0, 0] = [0, 0, 1] := by
    show addAt [(0 : ℚ), 0, 0] 2 ((npConvolve [(0 : ℚ), 1] [1]).drop 1) = [0, 0, 1]
    rw [hseg3]
    exact haddAt3
  have hlfp2 : (popUpdState [⟨1, 0, 2⟩] 2 3 demoState 1 "A").lfp = [[0, 0, 1]] := by
    rw [popUpdState_lfp, show List.range demoState.numElecs = [0] from rfl]
    simp only [List.foldl_cons, List.foldl_nil]
    rw [show (List.filter (fun e => decide (e.popId = (1 : ℚ)))
        [(⟨1, 0, 2⟩ : SpikeEvent)]).map SpikeEvent.t = [2] from rfl, hfr2,
      show (([0, 0, 1] : List ℚ).drop 2).take (3 - 2) = [1] from rfl,
      show (if 3 + demoState.halfL - 1 < demoState.nT then 3 + demoState.halfL - 1
        else demoState.nT) = 3 from rfl,
      show demoState.lfp.getD 0 [] = ([0, 0, 0] : List ℚ) from rfl, hrow3]
    rfl
  have hfrS : (popUpdState [⟨1, 0, 2⟩] 2 3 demoState 1 "A").fr "A" = [0, 0, 1] := by
    show addSpikes demoState (demoState.fr "A")
      ((List.filter (fun e => decide (e.popId = (1 : ℚ)))
        [(⟨1, 0, 2⟩ : SpikeEvent)]).map SpikeEvent.t) = _
    rw [show (List.filter (fun e => decide (e.popId = (1 : ℚ)))
      [(⟨1, 0, 2⟩ : SpikeEvent)]).map SpikeEvent.t = [2] from rfl]
    exact hfr2
  have hn5S : nearestIdx (popUpdState [⟨1, 0, 2⟩] 2 3 demoState 1 "A") 5 = 2 :=
    demo_nearest5
  have htvS : tvecLast (popUpdState [⟨1, 0, 2⟩] 2 3 demoState 1 "A") = 2 := demo_tvecLast
  have hupd5 : update (popUpdState [⟨1, 0, 2⟩] 2 3 demoState 1 "A") [⟨1, 0, 5⟩] =
      processPops [⟨1, 0, 5⟩] 2 3 (popUpdState [⟨1, 0, 2⟩] 2 3 demoState 1 "A") [1] := by
    rw [update, if_neg (by simp)]
    show processPops [⟨1, 0, 5⟩]
      (nearestIdx (popUpdState [⟨1, 0, 2⟩] 2 3 demoState 1 "A") (listMin [5]))
      (nearestIdx (popUpdState [⟨1, 0, 2⟩] 2 3 demoState 1 "A") (listMax [5]) + 1)
      (popUpdState [⟨1, 0, 2⟩] 2 3 demoState 1 "A")
      (bufferPopIds [⟨1, 0, 5⟩]) = _
    rw [show listMin [(5 : ℚ)] = 5 from rfl, show listMax [(5 : ℚ)] = 5 from rfl, hn5S,
      show bufferPopIds [(⟨1, 0, 5⟩ : SpikeEvent)] = [1] from rfl]
  have hproc5 : processPops [⟨1, 0, 5⟩] 2 3
      (popUpdState [⟨1, 0, 2⟩] 2 3 demoState 1 "A") [1] =
      (popUpdState [⟨1, 0, 5⟩] 2 3 (popUpdState [⟨1, 0, 2⟩] 2 3 demoState 1 "A") 1 "A",
        false) := rfl
  have hadd5 : addSpikes (popUpdState [⟨1, 0, 2⟩] 2 3 demoState 1 "A")
      ([0, 0, 1] : List ℚ) [5] = [0, 0, 1] := by
    simp only [addSpikes]
    rw [if_pos (by rw [htvS]; norm_num)]
  have haddAt5 : addAt [(0 : ℚ), 0, 1] 2 [(1 : ℚ)] = [0, 0, 2] := by
    rw [addAt, show List.range ([(0 : ℚ), 0, 1]).length = [0, 1, 2] from rfl]
    norm_num
  have hrow5 : rowConvAdd (popUpdState [⟨1, 0, 2⟩] 2 3 demoState 1 "A") "A" [1] 2 3 0
      [(0 : ℚ), 0, 1] = [0, 0, 2] := by
    show addAt [(0 : ℚ), 0, 1] 2 ((npConvolve [(0 : ℚ), 1] [1]).drop 1) = [0, 0, 2]
    rw [hseg3]
    exact haddAt5
  have hlfp5 : (popUpdState [⟨1, 0, 5⟩] 2 3 (popUpdState [⟨1, 0, 2⟩] 2 3 demoState 1 "A")
      1 "A").lfp = [[0, 0, 2]] := by
    rw [popUpdState_lfp,
      show List.range (popUpdState [⟨1, 0, 2⟩] 2 3 demoState 1 "A").numElecs = [0] from rfl]
    simp only [List.foldl_cons, List.foldl_nil]
    rw [show (List.filter (fun e => decide (e.popId = (1 : ℚ)))
        [(⟨1, 0, 5⟩ : SpikeEvent)]).map SpikeEvent.t = [5] from rfl, hfrS, hadd5,
      show (([0, 0, 1] : List ℚ).drop 2).take (3 - 2) = [1] from rfl,
      show (if 3 + (popUpdState [⟨1, 0, 2⟩] 2 3 demoState 1 "A").halfL - 1 <
          (popUpdState [⟨1, 0, 2⟩] 2 3 demoState 1 "A").nT
        then 3 + (popUpdState [⟨1, 0, 2⟩] 2 3 demoState 1 "A").halfL - 1
        else (popUpdState [⟨1, 0, 2⟩] 2 3 demoState 1 "A").nT) = 3 from rfl,
      hlfp2,
      show ([[0, 0, 1]] : List (List ℚ)).getD 0 [] = [0, 0, 1] from rfl, hrow5]
    rfl
  refine ⟨?_, ?_⟩
  · rw [hupd2]
    show tvecLast (popUpdState [⟨1, 0, 2⟩] 2 3 demoState 1 "A") < 5
    rw [htvS]
    norm_num
  · rw [hupd2]
    show (update (popUpdState [⟨1, 0, 2⟩] 2 3 demoState 1 "A") [⟨1, 0, 5⟩]).1.lfp ≠
      (popUpdState [⟨1, 0, 2⟩] 2 3 demoState 1 "A").lfp
    rw [hupd5, hproc5]
    show (popUpdState [⟨1, 0, 5⟩] 2 3 (popUpdState [⟨1, 0, 2⟩] 2 3 demoState 1 "A")
        1 "A").lfp ≠ (popUpdState [⟨1, 0, 2⟩] 2 3 demoState 1 "A").lfp
    rw [hlfp5, hlfp2]
    decide

/-- C4 (amended): a non-empty batch ALL of whose spike events reference
unregistered population ids raises the `KeyError` (reported, flag `true`)
with the state unchanged — the very first processed population id fails
its lookup before any mutation.  When the batch mixes known and unknown
ids, the raise is NOT before all mutation: populations processed before
the unknown id keep their mutations (see the companion counterexample),
so the spec's raise-before-mutating claim fails in general. -/
theorem update_unknown_pop_raises (s : PDState) (buffer : List SpikeEvent)
    (hne : buffer ≠ [])
    (hunk : ∀ ev ∈ buffer, lookupPopID s.popIDs ev.popId = none) :
    update s buffer = (s, true) := by
  have hlen : ¬ buffer.length = 0 := by
    intro hc
    exact hne (List.length_eq_zero.mp hc)
  rw [update, if_neg hlen]
  show processPops buffer (nearestIdx s (listMin (buffer.map SpikeEvent.t)))
    (nearestIdx s (listMax (buffer.map SpikeEvent.t)) + 1) s (bufferPopIds buffer) =
    (s, true)
  obtain ⟨pid, rest, hcons⟩ : ∃ pid rest, bufferPopIds buffer = pid :: rest := by
    cases hb : bufferPopIds buffer with
    | nil => exact absurd hb (bufferPopIds_ne_nil buffer hne)
    | cons x xs => exact ⟨x, xs, rfl⟩
  have hmem : pid ∈ bufferPopIds buffer := by
    rw [hcons]
    exact List.mem_cons_self _ _
  obtain ⟨ev, hev, hpid⟩ := (bufferPopIds_mem buffer pid).mp hmem
  have hnone : lookupPopID s.popIDs pid = none := by
    rw [← hpid]
    exact hunk ev hev
  rw [hcons]
  simp only [processPops, stepPop, hnone]

theorem update_unknown_pop_raises_witness :
    ([SpikeEvent.mk 2 0 1] ≠ []) ∧
    (∀ ev ∈ [SpikeEvent.mk 2 0 1], lookupPopID demoState.popIDs ev.popId = none) ∧
    update demoState [⟨2, 0, 1⟩] = (demoState, true) := by
  have hunk : ∀ ev ∈ [SpikeEvent.mk 2 0 1],
      lookupPopID demoState.popIDs ev.popId = none := by
    intro ev hev
    rw [List.mem_singleton] at hev
    subst hev
    rfl
  exact ⟨by simp, hunk, update_unknown_pop_raises demoState _ (by simp) hunk⟩

/-- C4 counterexample: the batch `[(1, 0, 1), (2, 0, 1)]` mixes the
registered population id 1 with the unregistered id 2.  `update` raises
(flag `true`), but only AFTER processing population `A`: its firing-rate
array has already been incremented at index 1 when the lookup of id 2
fails, so the raise does not happen before mutating state. -/
theorem update_unknown_pop_mutates_before_raise :
    (update demoState [⟨1, 0, 1⟩, ⟨2, 0, 1⟩]).2 = true ∧
    (update demoState [⟨1, 0, 1⟩, ⟨2, 0, 1⟩]).1.fr "A" ≠ demoState.fr "A" := by
  have hupd : update demoState [⟨1, 0, 1⟩, ⟨2, 0, 1⟩] =
      processPops [⟨1, 0, 1⟩, ⟨2, 0, 1⟩] 1 2 demoState [1, 2] := by
    rw [update, if_neg (by simp)]
    show processPops _ (nearestIdx demoState (listMin [1, 1]))
      (nearestIdx demoState (listMax [1, 1]) + 1) demoState
      (bufferPopIds [⟨1, 0, 1⟩, ⟨2, 0, 1⟩]) = _
    rw [show listMin [(1 : ℚ), 1] = 1 by norm_num [listMin],
      show listMax [(1 : ℚ), 1] = 1 by norm_num [listMax], demo_nearest1,
      show bufferPopIds [(⟨1, 0, 1⟩ : SpikeEvent), ⟨2, 0, 1⟩] = [1, 2] from rfl]
  have hproc : processPops [⟨1, 0, 1⟩, ⟨2, 0, 1⟩] 1 2 demoState [1, 2] =
      (popUpdState [⟨1, 0, 1⟩, ⟨2, 0, 1⟩] 1 2 demoState 1 "A", true) := rfl
  have hfr1 : addSpikes demoState (demoState.fr "A") [1] = [0, 1, 0] := by
    simp only [addSpikes, demo_nearest1]
    rw [if_neg (by rw [demo_tvecLast]; norm_num)]
    show (List.replicate 3 (0 : ℚ)).set 1 ((List.replicate 3 (0 : ℚ)).getD 1 0 + 1) =
      [0, 1, 0]
    rw [show (List.replicate 3 (0 : ℚ)).getD 1 0 = 0 from rfl]
    norm_num
    rfl
  have hfrS : (popUpdState [⟨1, 0, 1⟩, ⟨2, 0, 1⟩] 1 2 demoState 1 "A").fr "A" =
      [0, 1, 0] := by
    show addSpikes demoState (demoState.fr "A")
      ((List.filter (fun e => decide (e.popId = (1 : ℚ)))
        [(⟨1, 0, 1⟩ : SpikeEvent), ⟨2, 0, 1⟩]).map SpikeEvent.t) = _
    rw [show (List.filter (fun e => decide (e.popId = (1 : ℚ)))
      [(⟨1, 0, 1⟩ : SpikeEvent), ⟨2, 0, 1⟩]).map SpikeEvent.t = [1] from rfl]
    exact hfr1
  refine ⟨?_, ?_⟩
  · rw [hupd, hproc]
  · rw [hupd, hproc]
    show (popUpdState [⟨1, 0, 1⟩, ⟨2, 0, 1⟩] 1 2 demoState 1 "A").fr "A" ≠
      demoState.fr "A"
    rw [hfrS]
    show ([0, 1, 0] : List ℚ) ≠ List.replicate 3 0
    decide

theorem addAt_frame (row : List ℚ) (st : ℕ) (seg : List ℚ) (b : ℕ)
    (hlen : seg.length ≤ b - st) (i : ℕ) (hi : i < st ∨ b ≤ i) :
    (addAt row st seg).getD i 0 = row.getD i 0 := by
  by_cases hrange : i < row.length
  · rw [addAt_getD _ _ _ _ hrange, if_neg, add_zero]
    rintro ⟨h1, h2⟩
    rcases hi with h | h
    · omega
    · omega
  · rw [addAt_getD_ge _ _ _ _ (le_of_not_lt hrange),
      List.getD_eq_default _ _ (by simpa using le_of_not_lt hrange)]

/-- The per-channel convolution-add only touches LFP entries inside the
window `[sig0, sig1)`: both branches fit a segment of length at most
`sig1 - sig0` starting at `sig0`. -/
theorem rowConvAdd_frame (σ : PDState) (p : String) (fr_ : List ℚ)
    (sig0 sig1 e : ℕ) (row : List ℚ) (i : ℕ) (hi : i < sig0 ∨ sig1 ≤ i) :
    (rowConvAdd σ p fr_ sig0 sig1 e row).getD i 0 = row.getD i 0 := by
  simp only [rowConvAdd]
  split
  · rename_i hlen
    apply addAt_frame _ _ _ sig1 _ i hi
    rw [← hlen, List.length_take]
    omega
  · apply addAt_frame _ _ _ sig1 _ i hi
    rw [List.length_take]
    omega

/-- Frame conditions of the population loop: firing-rate entries change
only at nearest indices of in-horizon batch spikes, LFP entries only
inside `[t0_idx, min(t1_idx + halfL - 1, nT))`. -/
theorem processPops_frame (buffer : List SpikeEvent) (a b : ℕ) :
    ∀ (pids : List ℚ) (s : PDState),
      (∀ q j, (∀ ev ∈ buffer, ¬ ev.t > tvecLast s → nearestIdx s ev.t ≠ j) →
        ((processPops buffer a b s pids).1.fr q).getD j 0 = (s.fr q).getD j 0) ∧
      (∀ e i,
        i < a ∨ (if b + s.halfL - 1 < s.nT then b + s.halfL - 1 else s.nT) ≤ i →
        (((processPops buffer a b s pids).1.lfp.getD e []).getD i 0 =
          (s.lfp.getD e []).getD i 0)) := by
  intro pids
  induction pids with
  | nil =>
    intro s
    exact ⟨fun q j _ => rfl, fun e i _ => rfl⟩
  | cons pid rest ih =>
    intro s
    cases hlook : lookupPopID s.popIDs pid with
    | none =>
      have hpp : processPops buffer a b s (pid :: rest) = (s, true) := by
        simp only [processPops, stepPop, hlook]
      rw [hpp]
      exact ⟨fun q j _ => rfl, fun e i _ => rfl⟩
    | some p =>
      have hpp : processPops buffer a b s (pid :: rest) =
          processPops buffer a b (popUpdState buffer a b s pid p) rest := by
        simp only [processPops, stepPop, hlook]
      have hstepfr : ∀ q j,
          (∀ ev ∈ buffer, ¬ ev.t > tvecLast s → nearestIdx s ev.t ≠ j) →
          ((popUpdState buffer a b s pid p).fr q).getD j 0 = (s.fr q).getD j 0 := by
        intro q j hj
        rw [popUpdState_fr]
        show (if q = p then
            addSpikes s (s.fr p)
              ((buffer.filter fun e => decide (e.popId = pid)).map SpikeEvent.t)
          else s.fr q).getD j 0 = (s.fr q).getD j 0
        by_cases hq : q = p
        · rw [if_pos hq, hq]
          apply addSpikes_getD_frame
          intro t ht hin
          obtain ⟨ev, hev, het⟩ := mem_spiketimes ht
          rw [← het]
          exact hj ev hev (het ▸ hin)
        · rw [if_neg hq]
      have hsteplfp : ∀ e i,
          i < a ∨ (if b + s.halfL - 1 < s.nT then b + s.halfL - 1 else s.nT) ≤ i →
          (((popUpdState buffer a b s pid p).lfp.getD e []).getD i 0 =
            (s.lfp.getD e []).getD i 0) := by
        intro e i hi
        rw [popUpdState_lfp]
        obtain ⟨hlen2, hget⟩ := foldl_set_getD
          (fun e row => rowConvAdd s p
            (((addSpikes s (s.fr p)
              ((buffer.filter fun ev => decide (ev.popId = pid)).map SpikeEvent.t)).drop
                a).take (b - a))
            a (if b + s.halfL - 1 < s.nT then b + s.halfL - 1 else s.nT) e row)
          (List.range s.numElecs) s.lfp (List.nodup_range _)
        rw [hget e]
        split
        · rw [rowConvAdd_frame _ _ _ _ _ _ _ i hi]
        · rfl
      obtain ⟨ihfr, ihlfp⟩ := ih (popUpdState buffer a b s pid p)
      refine ⟨?_, ?_⟩
      · intro q j hj
        rw [hpp, ihfr q j hj]
        exact hstepfr q j hj
      · intro e i hi
        rw [hpp, ihlfp e i hi]
        exact hsteplfp e i hi

/-- C9: one error-free-or-not `update` call on a non-empty batch of
registered populations with in-horizon spike times never changes the
grid parameters (`dt`, `nT`), the kernel-length parameter, the kernel
mapping or the id-to-name mapping; it leaves every firing-rate entry
unchanged whose index is not the nearest grid index of some batch
spike; and it leaves every LFP sample unchanged whose index is below
`t0_idx` or at/above `min(t1_idx + kernel_length/2 - 1, nT)`, where
`t0_idx` and `t1_idx - 1` are the nearest indices of the batch's
minimum and maximum spike times. -/
theorem update_frame (s : PDState) (buffer : List SpikeEvent)
    (hne : buffer ≠ [])
    (hknown : ∀ ev ∈ buffer, ∃ p, lookupPopID s.popIDs ev.popId = some p)
    (hin : ∀ ev ∈ buffer, 0 ≤ ev.t ∧ ev.t ≤ tvecLast s) :
    (update s buffer).1.dt = s.dt ∧
    (update s buffer).1.nT = s.nT ∧
    (update s buffer).1.halfL = s.halfL ∧
    (update s buffer).1.popIDs = s.popIDs ∧
    (update s buffer).1.popKernels = s.popKernels ∧
    (∀ q j, (∀ ev ∈ buffer, nearestIdx s ev.t ≠ j) →
      ((update s buffer).1.fr q).getD j 0 = (s.fr q).getD j 0) ∧
    (∀ e i,
      i < nearestIdx s (listMin (buffer.map SpikeEvent.t)) ∨
      min (nearestIdx s (listMax (buffer.map SpikeEvent.t)) + 1 + s.halfL - 1) s.nT ≤ i →
      (((update s buffer).1.lfp.getD e []).getD i 0 = (s.lfp.getD e []).getD i 0)) := by
  obtain ⟨h1, h2, h3, _, h5, h6⟩ := update_statics s buffer
  have hlen : ¬ buffer.length = 0 := by
    intro hc
    exact hne (List.length_eq_zero.mp hc)
  have hupd : update s buffer =
      processPops buffer (nearestIdx s (listMin (buffer.map SpikeEvent.t)))
        (nearestIdx s (listMax (buffer.map SpikeEvent.t)) + 1) s
        (bufferPopIds buffer) := by
    rw [update, if_neg hlen]
  obtain ⟨hfr, hlfp⟩ := processPops_frame buffer
    (nearestIdx s (listMin (buffer.map SpikeEvent.t)))
    (nearestIdx s (listMax (buffer.map SpikeEvent.t)) + 1)
    (bufferPopIds buffer) s
  have hmin_ite : (if nearestIdx s (listMax (buffer.map SpikeEvent.t)) + 1 + s.halfL - 1
        < s.nT
      then nearestIdx s (listMax (buffer.map SpikeEvent.t)) + 1 + s.halfL - 1
      else s.nT) =
      min (nearestIdx s (listMax (buffer.map SpikeEvent.t)) + 1 + s.halfL - 1) s.nT := by
    split
    · rename_i h
      rw [min_eq_left (le_of_lt h)]
    · rename_i h
      rw [min_eq_right (le_of_not_lt h)]
  refine ⟨h1, h2, h3, h5, h6, ?_, ?_⟩
  · intro q j hj
    rw [hupd]
    exact hfr q j (fun ev hev _ => hj ev hev)
  · intro e i hi
    rw [hupd]
    apply hlfp e i
    rw [hmin_ite]
    exact hi

theorem update_frame_witness :
    (update demoState [⟨1, 0, 1⟩]).1.popKernels = demoState.popKernels :=
  (update_frame demoState [⟨1, 0, 1⟩] (by simp)
    (fun ev hev => by
      rw [List.mem_singleton] at hev
      subst hev
      exact ⟨"A", rfl⟩)
    (fun ev hev => by
      rw [List.mem_singleton] at hev
      subst hev
      exact ⟨by norm_num, by rw [demo_tvecLast]; norm_num⟩)).2.2.2.2.1

/-- State of the spec's scenario example: 1000-point unit grid, one
population `A` (id 1) with the 2-channel 6-sample kernel whose row 0 is
`[0,0,0,1,0,0]` and row 1 is all zeros, zero initial firing rates and
LFP. -/
def c5State : PDState where
  dt := 1
  nT := 1000
  halfL := 3
  numElecs := 2
  popIDs := [(1, "A")]
  popKernels := fun p => if p = "A" then [[0, 0, 0, 1, 0, 0], [0, 0, 0, 0, 0, 0]] else []
  fr := fun _ => List.replicate 1000 0
  lfp := [List.replicate 1000 0, List.replicate 1000 0]

theorem c5_addAt0 : addAt (List.replicate 1000 (0 : ℚ)) 500 [1, 0, 0] =
    (List.replicate 1000 (0 : ℚ)).set 500 1 := by
  apply ext_by_getD 0
  · rw [length_addAt, List.length_set]
  · intro i hi
    rw [length_addAt, List.length_replicate] at hi
    have hlen1000 : i < (List.replicate 1000 (0 : ℚ)).length := by
      rw [List.length_replicate]
      exact hi
    rw [addAt_getD _ _ _ _ hlen1000, getD_replicate_zero, zero_add, getD_set,
      getD_replicate_zero, List.length_replicate,
      show ([1, 0, 0] : List ℚ).length = 3 from rfl]
    by_cases hc : 500 ≤ i ∧ i < 500 + 3
    · rw [if_pos hc]
      by_cases h5 : i = 500
      · subst h5
        rw [if_pos ⟨rfl, by norm_num⟩]
        rfl
      · rw [if_neg (fun hx => h5 hx.1.symm)]
        have hd : i - 500 = 1 ∨ i - 500 = 2 := by omega
        rcases hd with h | h <;> rw [h] <;> rfl
    · rw [if_neg hc, if_neg (fun hx => hc ⟨by omega, by omega⟩)]

/-- C5: on the spec's scenario — 1000-point grid at dt = 1 ms, a single
population with kernel row 0 = `[0,0,0,1,0,0]` and row 1 zero, one
batch holding one spike at t = 500 from the zero state — `update`
raises no error, sets the firing-rate count to 1 at grid index 500 and
0 elsewhere, and produces LFP row 0 with value 1 at index 500 (the
kernel-index-3 sample after discarding the first L/2 = 3 convolution
samples) and 0 elsewhere, with row 1 all zero. -/
theorem update_single_spike_scenario :
    (update c5State [⟨1, 0, 500⟩]).2 = false ∧
    (update c5State [⟨1, 0, 500⟩]).1.fr "A" = (List.replicate 1000 (0 : ℚ)).set 500 1 ∧
    (update c5State [⟨1, 0, 500⟩]).1.lfp =
      [(List.replicate 1000 (0 : ℚ)).set 500 1, List.replicate 1000 (0 : ℚ)] := by
  have htv5 : tvecLast c5State = 999 := by norm_num [tvecLast, tvecLastP, c5State]
  have hn500 : nearestIdx c5State 500 = 500 := by
    have h5 := nearestIdxP_eq 1 1000 500 (by norm_num) (by norm_num) (by norm_num)
      (by norm_num [tvecLastP])
    have hceil : (⌈(500 : ℚ) / 1 - 1 / 2⌉ : ℤ) = 500 := by
      rw [Int.ceil_eq_iff]
      norm_num
    rw [nearestIdx, show c5State.dt = 1 from rfl, show c5State.nT = 1000 from rfl, h5,
      hceil]
    rfl
  have hupd : update c5State [⟨1, 0, 500⟩] =
      processPops [⟨1, 0, 500⟩] 500 501 c5State [1] := by
    rw [update, if_neg (by simp)]
    show processPops [⟨1, 0, 500⟩]
      (nearestIdx c5State (listMin (List.map SpikeEvent.t [⟨1, 0, 500⟩])))
      (nearestIdx c5State (listMax (List.map SpikeEvent.t [⟨1, 0, 500⟩])) + 1) c5State
      (bufferPopIds [⟨1, 0, 500⟩]) = _
    rw [show List.map SpikeEvent.t [(⟨1, 0, 500⟩ : SpikeEvent)] = [500] from rfl,
      show listMin [(500 : ℚ)] = 500 from rfl, show listMax [(500 : ℚ)] = 500 from rfl,
      hn500, show bufferPopIds [(⟨1, 0, 500⟩ : SpikeEvent)] = [1] from rfl]
  have hproc : processPops [⟨1, 0, 500⟩] 500 501 c5State [1] =
      (popUpdState [⟨1, 0, 500⟩] 500 501 c5State 1 "A", false) := by
    simp only [processPops, stepPop,
      show lookupPopID c5State.popIDs 1 = some "A" from rfl]
  have hadd : addSpikes c5State (c5State.fr "A") [500] =
      (List.replicate 1000 (0 : ℚ)).set 500 1 := by
    simp only [addSpikes, hn500]
    rw [if_neg (by rw [htv5]; norm_num)]
    show (List.replicate 1000 (0 : ℚ)).set 500
      ((List.replicate 1000 (0 : ℚ)).getD 500 0 + 1) = _
    rw [getD_replicate_zero]
    norm_num
  have hfrS : (popUpdState [⟨1, 0, 500⟩] 500 501 c5State 1 "A").fr "A" =
      (List.replicate 1000 (0 : ℚ)).set 500 1 := by
    rw [popUpdState_fr]
    show (if ("A" : String) = "A" then
        addSpikes c5State (c5State.fr "A")
          ((List.filter (fun e => decide (e.popId = (1 : ℚ)))
            [(⟨1, 0, 500⟩ : SpikeEvent)]).map SpikeEvent.t)
      else c5State.fr "A") = (List.replicate 1000 (0 : ℚ)).set 500 1
    rw [if_pos rfl,
      show (List.filter (fun e => decide (e.popId = (1 : ℚ)))
        [(⟨1, 0, 500⟩ : SpikeEvent)]).map SpikeEvent.t = [500] from rfl]
    exact hadd
  have hslice : (((List.replicate 1000 (0 : ℚ)).set 500 1).drop 500).take (501 - 500) =
      [1] := by
    apply ext_by_getD 0
    · rw [List.length_take, List.length_drop, List.length_set, List.length_replicate,
        show (501 - 500 : ℕ) = 1 from rfl, show (1000 - 500 : ℕ) = 500 from rfl,
        show ([1] : List ℚ).length = 1 from rfl]
      rw [min_eq_left (by norm_num)]
    · intro i hi
      rw [List.length_take, List.length_drop, List.length_set, List.length_replicate,
        show (501 - 500 : ℕ) = 1 from rfl, show (1000 - 500 : ℕ) = 500 from rfl,
        min_eq_left (by norm_num : (1 : ℕ) ≤ 500)] at hi
      have hi0 : i = 0 := by omega
      subst hi0
      rw [getD_slice, if_pos (by norm_num), getD_set,
        if_pos ⟨by norm_num, by rw [List.length_replicate]; norm_num⟩]
      rfl
  have hconv0 : npConvolve [(0 : ℚ), 0, 0, 1, 0, 0] [1] = [0, 0, 0, 1, 0, 0] := by
    rw [npConvolve]
    norm_num [List.range_succ]
  have hconv1 : npConvolve [(0 : ℚ), 0, 0, 0, 0, 0] [1] = [0, 0, 0, 0, 0, 0] := by
    rw [npConvolve]
    norm_num [List.range_succ]
  have hcond : (((List.replicate 1000 (0 : ℚ)).drop 500).take (503 - 500)).length = 3 := by
    rw [List.length_take, List.length_drop, List.length_replicate,
      show (503 - 500 : ℕ) = 3 from rfl, show (1000 - 500 : ℕ) = 500 from rfl]
    rw [min_eq_left (by norm_num)]
  have hrow0 : rowConvAdd c5State "A" [1] 500 503 0 (List.replicate 1000 (0 : ℚ)) =
      (List.replicate 1000 (0 : ℚ)).set 500 1 := by
    simp only [rowConvAdd]
    rw [show (c5State.popKernels "A").getD 0 [] = [(0 : ℚ), 0, 0, 1, 0, 0] from rfl,
      show c5State.halfL = 3 from rfl, hconv0,
      show ([0, 0, 0, 1, 0, 0] : List ℚ).drop 3 = [1, 0, 0] from rfl,
      if_pos (by
        rw [hcond]
        rfl)]
    exact c5_addAt0
  have hrow1 : rowConvAdd c5State "A" [1] 500 503 1 (List.replicate 1000 (0 : ℚ)) =
      List.replicate 1000 (0 : ℚ) := by
    simp only [rowConvAdd]
    rw [show (c5State.popKernels "A").getD 1 [] = [(0 : ℚ), 0, 0, 0, 0, 0] from rfl,
      show c5State.halfL = 3 from rfl, hconv1,
      show ([0, 0, 0, 0, 0, 0] : List ℚ).drop 3 = [0, 0, 0] from rfl,
      if_pos (by
        rw [hcond]
        rfl)]
    apply addAt_zero_seg
    intro j
    rcases j with _ | _ | _ | j <;> rfl
  have hlfpF : (popUpdState [⟨1, 0, 500⟩] 500 501 c5State 1 "A").lfp =
      [(List.replicate 1000 (0 : ℚ)).set 500 1, List.replicate 1000 (0 : ℚ)] := by
    rw [popUpdState_lfp, show List.range c5State.numElecs = [0, 1] from rfl]
    simp only [List.foldl_cons, List.foldl_nil]
    rw [show (List.filter (fun e => decide (e.popId = (1 : ℚ)))
        [(⟨1, 0, 500⟩ : SpikeEvent)]).map SpikeEvent.t = [500] from rfl, hadd, hslice,
      show (if 501 + c5State.halfL - 1 < c5State.nT then 501 + c5State.halfL - 1
        else c5State.nT) = 503 from rfl,
      show c5State.lfp.getD 0 [] = List.replicate 1000 (0 : ℚ) from rfl, hrow0,
      show (c5State.lfp.set 0 ((List.replicate 1000 (0 : ℚ)).set 500 1)).getD 1 [] =
        List.replicate 1000 (0 : ℚ) from rfl, hrow1]
    rfl
  refine ⟨?_, ?_, ?_⟩
  · rw [hupd, hproc]
  · rw [hupd, hproc]
    show (popUpdState [⟨1, 0, 500⟩] 500 501 c5State 1 "A").fr "A" = _
    exact hfrS
  · rw [hupd, hproc]
    show (popUpdState [⟨1, 0, 500⟩] 500 501 c5State 1 "A").lfp = _
    exact hlfpF

end Cosim
